import Mathlib

/-!
Verification of the core storage-engine claims of the ceresdb analytic
engine against a shallow embedding of its Rust sources.

The embedding covers:
* sst/file.rs — FileHandle, FileOrdKey, FileHandleSet, LevelHandler,
  FilePurgeQueue and the drop-to-purge path;
* instance/open.rs — WAL replay (replay_table_log_entries,
  recover_table_from_wal);
* instance/drop.rs — Dropper::drop;
* instance/read.rs — partition_ssts_and_memtables,
  build_partitioned_streams, partitioned_read_from_table.

Types that live outside the staged sources (common_types::time::TimeRange,
table::version::ReadView, the manifest applier) are modelled from the
specification and carry a doc comment saying so.
-/

set_option maxHeartbeats 1000000

namespace CeresDB

/-- Modelled from the spec: timestamps are signed 64-bit millisecond values
(common_types::time::Timestamp is not under src/); we embed the value as Int
and record the i64 minimum, which FileOrdKey::for_seek uses as
Timestamp::MIN. -/
def tsMin : Int := -(2 ^ 63)

/-- Modelled from the spec: a time range is the half-open interval
[inclusive_start, exclusive_end) (common_types::time::TimeRange is not under
src/). -/
structure TimeRange where
  inclusive_start : Int
  exclusive_end : Int
deriving DecidableEq

/-- Modelled from the spec: two half-open ranges intersect when each starts
before the other ends. -/
def TimeRange.intersect_with (a b : TimeRange) : Bool :=
  decide (a.inclusive_start < b.exclusive_end) && decide (b.inclusive_start < a.exclusive_end)

/-- Modelled from the spec: a range is expired iff its exclusive_end is at or
before the expire timestamp; no expire timestamp (no TTL) means nothing
expires. -/
def TimeRange.is_expired (r : TimeRange) (expire_time : Option Int) : Bool :=
  match expire_time with
  | none => false
  | some t => decide (r.exclusive_end ≤ t)

/-- Modelled from the spec: segment alignment truncates a timestamp down to
the greatest multiple of the duration not above it. -/
def truncate_by (t : Int) (d : Int) : Int :=
  (Int.fdiv t d) * d

/-- Meta data of an sst file (sst/file.rs, SstMetaData); the schema is kept
as its version number and the index map is dropped as opaque. -/
structure SstMetaData where
  min_key : List Nat
  max_key : List Nat
  time_range : TimeRange
  max_sequence : Nat
  schema : Nat
  size : Nat
  row_num : Nat
deriving DecidableEq

/-- Meta of an sst file (sst/file.rs, FileMeta). -/
structure FileMeta where
  id : Nat
  meta : SstMetaData
deriving DecidableEq

/-- FileMeta::intersect_with_time_range (sst/file.rs). -/
def FileMeta.intersect_with_time_range (m : FileMeta) (time_range : TimeRange) : Bool :=
  m.meta.time_range.intersect_with time_range

/-- FileHandle (sst/file.rs): the shared inner holds the meta; the purge
queue and refcount behaviour are modelled separately for the drop path. -/
structure FileHandle where
  meta : FileMeta
deriving DecidableEq

/-- FileHandle::id. -/
def FileHandle.id (f : FileHandle) : Nat := f.meta.id

/-- FileHandle::time_range. -/
def FileHandle.time_range (f : FileHandle) : TimeRange := f.meta.meta.time_range

/-- FileHandle::intersect_with_time_range. -/
def FileHandle.intersect_with_time_range (f : FileHandle) (time_range : TimeRange) : Bool :=
  f.meta.intersect_with_time_range time_range

/-- FileOrdKey (sst/file.rs): orders FileHandle by
(exclusive_end, inclusive_start, file_id). -/
structure FileOrdKey where
  exclusive_end : Int
  inclusive_start : Int
  file_id : Nat
deriving DecidableEq

/-- FileOrdKey::for_seek. -/
def FileOrdKey.for_seek (exclusive_end : Int) : FileOrdKey :=
  { exclusive_end := exclusive_end, inclusive_start := tsMin, file_id := 0 }

/-- FileOrdKey::key_of. -/
def FileOrdKey.key_of (file : FileHandle) : FileOrdKey :=
  { exclusive_end := file.time_range.exclusive_end
    inclusive_start := file.time_range.inclusive_start
    file_id := file.id }

/-- Lexicographic strict order on FileOrdKey (the derived Ord of the
source). -/
def FileOrdKey.lt (a b : FileOrdKey) : Bool :=
  decide (a.exclusive_end < b.exclusive_end) ||
    (decide (a.exclusive_end = b.exclusive_end) &&
      (decide (a.inclusive_start < b.inclusive_start) ||
        (decide (a.inclusive_start = b.inclusive_start) && decide (a.file_id < b.file_id))))

/-- Lexicographic order on FileOrdKey. -/
def FileOrdKey.le (a b : FileOrdKey) : Bool :=
  FileOrdKey.lt a b || decide (a = b)

/-- FileHandleSet (sst/file.rs): the BTreeMap keyed by FileOrdKey::key_of is
embedded as the list of its values in ascending key order, and the HashSet
indexed by file id as a plain list of handles. -/
structure FileHandleSet where
  file_map : List FileHandle
  id_to_files : List FileHandle
deriving DecidableEq

/-- The empty FileHandleSet (derived Default of the source). -/
def emptyFileHandleSet : FileHandleSet := { file_map := [], id_to_files := [] }

/-- FileHandleSet::latest: the greatest entry of the ordered map. -/
def FileHandleSet.latest (s : FileHandleSet) : Option FileHandle :=
  s.file_map.getLast?

/-- FileHandleSet::files_by_time_range: seek to the first entry whose key is
at least for_seek(range.inclusive_start) — on the sorted value list this is a
filter — then keep the files intersecting the range. -/
def FileHandleSet.files_by_time_range (s : FileHandleSet) (time_range : TimeRange) :
    List FileHandle :=
  let seek_key := FileOrdKey.for_seek time_range.inclusive_start
  (s.file_map.filter (fun f => FileOrdKey.le seek_key (FileOrdKey.key_of f))).filter
    (fun f => f.intersect_with_time_range time_range)

/-- BTreeMap::insert on the sorted value list: place the new file before the
first strictly greater key, replacing an entry with an equal key. -/
def mapInsert (file : FileHandle) : List FileHandle → List FileHandle
  | [] => [file]
  | g :: rest =>
    if FileOrdKey.lt (FileOrdKey.key_of file) (FileOrdKey.key_of g) then file :: g :: rest
    else if FileOrdKey.key_of file = FileOrdKey.key_of g then file :: rest
    else g :: mapInsert file rest

/-- HashSet::insert keyed by file id: a present id keeps the old element and
the set is not modified. -/
def hashInsert (file : FileHandle) (s : List FileHandle) : List FileHandle :=
  if s.any (fun g => decide (g.id = file.id)) then s else file :: s

/-- FileHandleSet::insert. -/
def FileHandleSet.insert (s : FileHandleSet) (file : FileHandle) : FileHandleSet :=
  { file_map := mapInsert file s.file_map
    id_to_files := hashInsert file s.id_to_files }

/-- One iteration of FileHandleSet::remove_by_ids: HashSet::take removes
the handle with the given id from the id index, and then the ordered map
drops the entry at key_of of that handle; an absent id changes nothing. -/
def removeFileStep (s : FileHandleSet) (file_id : Nat) : FileHandleSet :=
  match s.id_to_files.find? (fun g => decide (g.id = file_id)) with
  | some file =>
    { file_map :=
        s.file_map.eraseP (fun g => decide (FileOrdKey.key_of g = FileOrdKey.key_of file))
      id_to_files := s.id_to_files.eraseP (fun g => decide (g.id = file_id)) }
  | none => s

/-- FileHandleSet::remove_by_ids. -/
def FileHandleSet.remove_by_ids (s : FileHandleSet) (file_ids : List Nat) : FileHandleSet :=
  file_ids.foldl removeFileStep s

/-- FileHandleSet::collect_expired: iterate the ordered map from the front,
pushing expired files and stopping at the first non-expired one. -/
def FileHandleSet.collect_expired (s : FileHandleSet) (expire_time : Option Int)
    (expired_files : List FileHandle) : List FileHandle :=
  expired_files ++ s.file_map.takeWhile (fun f => f.time_range.is_expired expire_time)

/-- FileHandleSet::has_expired_sst: files are sorted by end time first, so
checking the first file is enough. -/
def FileHandleSet.has_expired_sst (s : FileHandleSet) (expire_time : Option Int) : Bool :=
  match s.file_map.head? with
  | some file => file.time_range.is_expired expire_time
  | none => false

/-- LevelHandler (sst/file.rs): the files of a single level. -/
structure LevelHandler where
  level : Nat
  files : FileHandleSet
deriving DecidableEq

/-- LevelHandler::pick_ssts: level 0 filters by time range, higher levels
return nothing. -/
def LevelHandler.pick_ssts (h : LevelHandler) (time_range : TimeRange) : List FileHandle :=
  if h.level = 0 then h.files.files_by_time_range time_range else []

/-- LevelHandler::insert. -/
def LevelHandler.insert (h : LevelHandler) (file : FileHandle) : LevelHandler :=
  { h with files := h.files.insert file }

/-- LevelHandler::remove_ssts. -/
def LevelHandler.remove_ssts (h : LevelHandler) (file_ids : List Nat) : LevelHandler :=
  { h with files := h.files.remove_by_ids file_ids }

/-- LevelHandler::collect_expired. -/
def LevelHandler.collect_expired (h : LevelHandler) (expire_time : Option Int)
    (expired_files : List FileHandle) : List FileHandle :=
  h.files.collect_expired expire_time expired_files

/-- Helper: FileOrdKey.le implies the exclusive ends are ordered. -/
theorem FileOrdKey.le_exclusive_end {a b : FileOrdKey} (h : FileOrdKey.le a b = true) :
    a.exclusive_end ≤ b.exclusive_end := by
  simp only [FileOrdKey.le, FileOrdKey.lt, Bool.or_eq_true, Bool.and_eq_true,
    decide_eq_true_eq] at h
  rcases h with (h1 | ⟨h2, _⟩) | h3
  · exact le_of_lt h1
  · exact le_of_eq h2
  · exact le_of_eq (by rw [h3])

/-- C5: for every level-0 LevelHandler and query range, pick_ssts returns
exactly the files of the level whose time range intersects the query range
(the seek to the first key with exclusive_end at least range.inclusive_start
drops only non-intersecting files); for every level above 0 it returns the
empty vector. -/
theorem pick_ssts_exact (h : LevelHandler) (time_range : TimeRange) :
    h.pick_ssts time_range =
      if h.level = 0 then
        h.files.file_map.filter (fun f => f.intersect_with_time_range time_range)
      else [] := by
  by_cases h0 : h.level = 0
  · simp only [LevelHandler.pick_ssts, if_pos h0, FileHandleSet.files_by_time_range,
      List.filter_filter]
    apply List.filter_congr
    intro f _
    by_cases hI : f.intersect_with_time_range time_range = true
    · have hle : FileOrdKey.le (FileOrdKey.for_seek time_range.inclusive_start)
          (FileOrdKey.key_of f) = true := by
        simp only [FileHandle.intersect_with_time_range, FileMeta.intersect_with_time_range,
          TimeRange.intersect_with, Bool.and_eq_true, decide_eq_true_eq,
          FileHandle.time_range] at hI
        simp only [FileOrdKey.le, FileOrdKey.lt, FileOrdKey.for_seek, FileOrdKey.key_of,
          Bool.or_eq_true, Bool.and_eq_true, decide_eq_true_eq, FileHandle.time_range]
        exact Or.inl (Or.inl hI.2)
      rw [hI, hle]
      rfl
    · rw [Bool.not_eq_true] at hI
      rw [hI]
      simp
  · simp [LevelHandler.pick_ssts, h0]

/-- Helper: on a list whose keys are nondecreasing, takeWhile for the
expiry predicate equals filter, since expiry only depends on the
exclusive end and the ends are nondecreasing. -/
theorem takeWhile_expired_eq_filter (expire_time : Option Int) :
    ∀ l : List FileHandle,
      l.Pairwise (fun a b => FileOrdKey.le (FileOrdKey.key_of a) (FileOrdKey.key_of b) = true) →
      l.takeWhile (fun f => f.time_range.is_expired expire_time) =
        l.filter (fun f => f.time_range.is_expired expire_time) := by
  intro l hl
  induction l with
  | nil => rfl
  | cons f rest ih =>
    rcases List.pairwise_cons.mp hl with ⟨hf, hrest⟩
    by_cases hE : f.time_range.is_expired expire_time = true
    · rw [List.takeWhile_cons, List.filter_cons, hE]
      simp only [if_pos rfl, ite_true]
      exact congrArg (f :: ·) (ih hrest)
    · rw [Bool.not_eq_true] at hE
      rw [List.takeWhile_cons, List.filter_cons, hE]
      simp only [Bool.false_eq_true, if_false, ite_false]
      have hnone : ∀ g ∈ rest, g.time_range.is_expired expire_time = false := by
        intro g hg
        by_contra hgc
        rw [Bool.not_eq_false] at hgc
        cases expire_time with
        | none => simp [TimeRange.is_expired] at hgc
        | some t =>
          have hgend : g.time_range.exclusive_end ≤ t := by
            simpa [TimeRange.is_expired] using hgc
          have hend : (FileOrdKey.key_of f).exclusive_end ≤
              (FileOrdKey.key_of g).exclusive_end :=
            FileOrdKey.le_exclusive_end (hf g hg)
          have hfend : f.time_range.exclusive_end ≤ t := by
            simp only [FileOrdKey.key_of] at hend
            exact le_trans hend hgend
          have : f.time_range.is_expired (some t) = true := by
            simpa [TimeRange.is_expired] using hfend
          rw [this] at hE
          exact Bool.noConfusion hE
      rw [List.filter_eq_nil_iff.mpr]
      intro g hg
      rw [hnone g hg]
      exact Bool.false_ne_true

/-- C6: collect_expired appends to the output exactly the files of the set
whose time range is expired: stopping at the first non-expired file misses
nothing because the ordered map sorts by (exclusive_end, inclusive_start,
file_id) and expiry depends only on exclusive_end. -/
theorem collect_expired_exact (s : FileHandleSet) (expire_time : Option Int)
    (expired_files : List FileHandle)
    (hsorted : s.file_map.Pairwise
      (fun a b => FileOrdKey.le (FileOrdKey.key_of a) (FileOrdKey.key_of b) = true)) :
    s.collect_expired expire_time expired_files =
      expired_files ++
        s.file_map.filter (fun f => f.time_range.is_expired expire_time) := by
  unfold FileHandleSet.collect_expired
  rw [takeWhile_expired_eq_filter expire_time s.file_map hsorted]

/-- Witness file with range [0, 5). -/
def sampleFileA : FileHandle :=
  { meta := { id := 1
              meta := { min_key := [], max_key := [], time_range := { inclusive_start := 0, exclusive_end := 5 }
                        max_sequence := 3, schema := 1, size := 10, row_num := 4 } } }

/-- Witness file with range [2, 9). -/
def sampleFileB : FileHandle :=
  { meta := { id := 2
              meta := { min_key := [], max_key := [], time_range := { inclusive_start := 2, exclusive_end := 9 }
                        max_sequence := 7, schema := 1, size := 11, row_num := 5 } } }

/-- Witness set holding sampleFileA and sampleFileB in key order. -/
def sampleSet : FileHandleSet :=
  { file_map := [sampleFileA, sampleFileB], id_to_files := [sampleFileA, sampleFileB] }

/-- C6 witness: collect_expired on a concrete two-file sorted set with
expire time 6 keeps exactly the first file. -/
theorem collect_expired_exact_witness :
    sampleSet.collect_expired (some 6) [] =
      [] ++ sampleSet.file_map.filter (fun f => f.time_range.is_expired (some 6)) :=
  collect_expired_exact sampleSet (some 6) [] (by
    simp only [sampleSet, List.pairwise_cons]
    refine ⟨?_, ?_⟩
    · intro g hg
      simp only [List.mem_singleton] at hg
      subst hg
      decide
    · simp)

/-- FilePurgeRequest (sst/file.rs). -/
structure FilePurgeRequest where
  space_id : Nat
  table_id : Nat
  file_id : Nat
deriving DecidableEq

/-- Request (sst/file.rs): a message to the background purger. -/
inductive Request where
  | Purge : FilePurgeRequest → Request
  | Exit : Request
deriving DecidableEq

/-- FilePurgeQueue (sst/file.rs): the space and table ids of its inner, the
closed flag, and the requests sent so far on its unbounded channel, in
order. -/
structure FilePurgeQueue where
  space_id : Nat
  table_id : Nat
  closed : Bool
  sent : List Request
deriving DecidableEq

/-- FilePurgeQueue::close: all requests pushed afterwards are ignored. -/
def FilePurgeQueue.close (q : FilePurgeQueue) : FilePurgeQueue :=
  { q with closed := true }

/-- FilePurgeQueue::push_file: a closed queue silently drops the push,
otherwise a Purge request carrying the queue's space id, table id and the
file id is sent. -/
def FilePurgeQueue.push_file (q : FilePurgeQueue) (file_id : Nat) : FilePurgeQueue :=
  if q.closed then q
  else
    { q with
      sent := q.sent ++
        [Request.Purge { space_id := q.space_id, table_id := q.table_id, file_id := file_id }] }

/-- FileHandle clones share one FileHandleInner through an Arc; the live
clone count together with the inner meta stands for that shared state. -/
structure FileHandleShared where
  refcount : Nat
  meta : FileMeta
deriving DecidableEq

/-- Drop of one FileHandle clone: dropping the last live clone drops the
FileHandleInner, whose Drop impl pushes the file id onto the purge queue
(sst/file.rs, impl Drop for FileHandleInner). -/
def dropFileHandleClone (st : FileHandleShared) (q : FilePurgeQueue) :
    FileHandleShared × FilePurgeQueue :=
  if st.refcount ≤ 1 then ({ st with refcount := 0 }, q.push_file st.meta.id)
  else ({ st with refcount := st.refcount - 1 }, q)

/-- A sequence of push_file calls on a queue. -/
def pushAll (q : FilePurgeQueue) (file_ids : List Nat) : FilePurgeQueue :=
  file_ids.foldl FilePurgeQueue.push_file q

/-- Helper: every push on a closed queue is discarded and the queue stays
closed. -/
theorem pushAll_closed (file_ids : List Nat) :
    ∀ q : FilePurgeQueue, q.closed = true → pushAll q file_ids = q := by
  induction file_ids with
  | nil => intro q _; rfl
  | cons i rest ih =>
    intro q hq
    show pushAll (q.push_file i) rest = q
    have hpush : q.push_file i = q := by
      unfold FilePurgeQueue.push_file
      rw [hq]
      rfl
    rw [hpush]
    exact ih q hq

/-- C3: dropping the last clone of a FileHandle pushes a Purge request with
the file's space id, table id and file id onto the purger queue, unless the
queue was closed, in which case nothing is sent; a non-last drop sends
nothing; and close() makes every subsequent push on the queue a no-op. -/
theorem file_handle_drop_purge (st : FileHandleShared) (q : FilePurgeQueue)
    (file_ids : List Nat) :
    ((dropFileHandleClone st q).2.sent =
        if st.refcount ≤ 1 ∧ q.closed = false then
          q.sent ++
            [Request.Purge
              { space_id := q.space_id, table_id := q.table_id, file_id := st.meta.id }]
        else q.sent)
    ∧ (1 < st.refcount → (dropFileHandleClone st q).2 = q)
    ∧ pushAll q.close file_ids = q.close := by
  refine ⟨?_, ?_, ?_⟩
  · by_cases h1 : st.refcount ≤ 1
    · by_cases h2 : q.closed = true
      · simp [dropFileHandleClone, FilePurgeQueue.push_file, h1, h2]
      · rw [Bool.not_eq_true] at h2
        simp [dropFileHandleClone, FilePurgeQueue.push_file, h1, h2]
    · simp [dropFileHandleClone, FilePurgeQueue.push_file, h1]
  · intro hgt
    unfold dropFileHandleClone
    rw [if_neg (by omega)]
  · exact pushAll_closed file_ids q.close rfl

/-- RowGroup as replay sees it: its schema version and opaque row data. -/
structure RowGroup where
  schema_version : Nat
  rows : List Nat
deriving DecidableEq

/-- ReadPayload (crate::payload, as matched by instance/open.rs): a Write
carrying a row group, or the two DDL payloads that replay ignores. -/
inductive ReadPayload where
  | Write : RowGroup → ReadPayload
  | AlterSchema : Nat → ReadPayload
  | AlterOptions : Nat → ReadPayload
deriving DecidableEq

/-- LogEntry (wal::log_batch::LogEntry): a sequence number and a payload. -/
structure LogEntry where
  sequence : Nat
  payload : ReadPayload
deriving DecidableEq

/-- The slice of TableData state that WAL replay touches: the current schema
version, the (sequence, row group) pairs applied to the memtable, and
last_sequence. -/
structure ReplayTableState where
  schema_version : Nat
  memtable : List (Nat × RowGroup)
  last_sequence : Nat
deriving DecidableEq

/-- One iteration of the replay loop body (instance/open.rs,
replay_table_log_entries): a Write whose row-group schema version differs
from the table's current version is skipped with a log line and the loop
continues; a matching Write is applied to the memtable via write_to_memtable
without re-appending to the WAL; AlterSchema and AlterOptions are ignored.
A flush possibly scheduled during replay is asynchronous
(block_on_write_thread: false) and does not change the applied entries. -/
def applyReplayEntry (st : ReplayTableState) (e : LogEntry) : ReplayTableState :=
  match e.payload with
  | ReadPayload.Write rg =>
    if st.schema_version ≠ rg.schema_version then st
    else { st with memtable := st.memtable ++ [(e.sequence, rg)] }
  | ReadPayload.AlterSchema _ => st
  | ReadPayload.AlterOptions _ => st

/-- Instance::replay_table_log_entries: an empty batch leaves the state
untouched; a non-empty batch replays every entry in order and then sets
last_sequence to the last entry's sequence. -/
def replay_table_log_entries (st : ReplayTableState) (log_entries : List LogEntry) :
    ReplayTableState :=
  match log_entries with
  | [] => st
  | e :: rest =>
    let st1 := (e :: rest).foldl applyReplayEntry st
    { st1 with last_sequence := ((e :: rest).getLast (List.cons_ne_nil e rest)).sequence }

/-- Instance::recover_table_from_wal: read the WAL in batches of
replay_batch_size, replay each batch, and stop when a fetched batch comes
back empty. -/
def recover_table_from_wal (replay_batch_size : Nat) (st : ReplayTableState)
    (wal : List LogEntry) : ReplayTableState :=
  if h : (wal.take replay_batch_size).isEmpty then
    replay_table_log_entries st (wal.take replay_batch_size)
  else
    recover_table_from_wal replay_batch_size
      (replay_table_log_entries st (wal.take replay_batch_size))
      (wal.drop replay_batch_size)
termination_by wal.length
decreasing_by
  have hbs : replay_batch_size ≠ 0 := by
    intro hbs0
    rw [hbs0] at h
    simp at h
  have hw : wal ≠ [] := by
    intro hw0
    rw [hw0] at h
    simp at h
  simp only [List.length_drop]
  have hpos : 0 < wal.length := List.length_pos.mpr hw
  omega

/-- The Write entries of a batch whose row-group schema version matches the
given table schema version, paired with their sequences, in order. -/
def matchingWrites (v : Nat) (log_entries : List LogEntry) : List (Nat × RowGroup) :=
  log_entries.filterMap (fun e =>
    match e.payload with
    | ReadPayload.Write rg => if rg.schema_version = v then some (e.sequence, rg) else none
    | ReadPayload.AlterSchema _ => none
    | ReadPayload.AlterOptions _ => none)

/-- Helper: the replay loop applies exactly the matching Write entries and
never changes the schema version. -/
theorem foldl_applyReplayEntry (log_entries : List LogEntry) :
    ∀ st : ReplayTableState,
      (log_entries.foldl applyReplayEntry st).memtable =
          st.memtable ++ matchingWrites st.schema_version log_entries
        ∧ (log_entries.foldl applyReplayEntry st).schema_version = st.schema_version := by
  induction log_entries with
  | nil => intro st; simp [matchingWrites]
  | cons e rest ih =>
    intro st
    rw [List.foldl_cons]
    rcases ih (applyReplayEntry st e) with ⟨hm, hv⟩
    have hstep :
        (applyReplayEntry st e).schema_version = st.schema_version ∧
          (applyReplayEntry st e).memtable =
            st.memtable ++ matchingWrites st.schema_version [e] := by
      cases hp : e.payload with
      | Write rg =>
        by_cases hvv : st.schema_version = rg.schema_version
        · constructor
          · simp [applyReplayEntry, hp, hvv]
          · simp [applyReplayEntry, matchingWrites, hp, hvv]
        · have hvv2 : ¬ rg.schema_version = st.schema_version := fun hh => hvv hh.symm
          constructor
          · simp [applyReplayEntry, hp, hvv]
          · simp [applyReplayEntry, matchingWrites, hp, hvv, hvv2]
      | AlterSchema a => exact ⟨by simp [applyReplayEntry, hp], by simp [applyReplayEntry, matchingWrites, hp]⟩
      | AlterOptions a => exact ⟨by simp [applyReplayEntry, hp], by simp [applyReplayEntry, matchingWrites, hp]⟩
    constructor
    · rw [hm, hstep.2, hstep.1]
      have hsplit : matchingWrites st.schema_version (e :: rest) =
          matchingWrites st.schema_version [e] ++ matchingWrites st.schema_version rest := by
        unfold matchingWrites
        rw [show (e :: rest) = [e] ++ rest from rfl, List.filterMap_append]
      rw [hsplit, List.append_assoc]
    · rw [hv, hstep.1]

/-- C1: replay applies to the memtable exactly the Write entries whose
row-group schema version equals the table's current schema version, in
order; a Write with any other version (older or newer) is skipped without
surfacing an error and replay continues with the next entry, and
AlterSchema / AlterOptions entries are ignored. The replay function is
total, so a schema-version mismatch can never fail the replay. -/
theorem replay_applies_only_matching_writes (st : ReplayTableState)
    (log_entries : List LogEntry) :
    (replay_table_log_entries st log_entries).memtable =
        st.memtable ++ matchingWrites st.schema_version log_entries
      ∧ (replay_table_log_entries st log_entries).schema_version = st.schema_version := by
  cases log_entries with
  | nil => simp [replay_table_log_entries, matchingWrites]
  | cons e rest =>
    unfold replay_table_log_entries
    exact foldl_applyReplayEntry (e :: rest) st

/-- Helper: the getLast of a non-empty drop equals the getLast of the whole
list. -/
theorem getLast_drop_eq (l : List LogEntry) (n : Nat) (hd : l.drop n ≠ [])
    (hl : l ≠ []) : (l.drop n).getLast hd = l.getLast hl := by
  have h1 : (l.drop n).getLast? = l.getLast? := by
    conv_rhs => rw [← List.take_append_drop n l]
    rw [List.getLast?_append_of_ne_nil _ hd]
  rw [List.getLast?_eq_getLast _ hd, List.getLast?_eq_getLast _ hl] at h1
  exact Option.some.inj h1

/-- Helper: a non-empty batch sets last_sequence to its last entry's
sequence. -/
theorem replay_last_sequence (st : ReplayTableState) (log_entries : List LogEntry)
    (hne : log_entries ≠ []) :
    (replay_table_log_entries st log_entries).last_sequence =
      (log_entries.getLast hne).sequence := by
  cases log_entries with
  | nil => exact absurd rfl hne
  | cons e rest => rfl

/-- Helper: recover with fuel bound on the wal length. -/
theorem recover_last_sequence_aux (n : Nat) :
    ∀ (bs : Nat) (st : ReplayTableState) (wal : List LogEntry), wal.length ≤ n →
      0 < bs → (hw : wal ≠ []) →
      (recover_table_from_wal bs st wal).last_sequence = (wal.getLast hw).sequence := by
  induction n with
  | zero =>
    intro bs st wal hlen _ hw
    exact absurd (List.length_eq_zero.mp (Nat.le_zero.mp hlen)) hw
  | succ n ih =>
    intro bs st wal hlen hbs hw
    have htake : ¬ (wal.take bs).isEmpty = true := by
      rw [List.isEmpty_iff]
      intro hnil
      rcases List.take_eq_nil_iff.mp hnil with h0 | h0
      all_goals first
        | exact hw h0
        | omega
    unfold recover_table_from_wal
    rw [dif_neg htake]
    by_cases hd : wal.drop bs = []
    · rw [hd]
      have hstop : recover_table_from_wal bs
          (replay_table_log_entries st (wal.take bs)) [] =
          replay_table_log_entries (replay_table_log_entries st (wal.take bs)) [] := by
        unfold recover_table_from_wal
        rw [dif_pos (by simp)]
        simp
      rw [hstop]
      show (replay_table_log_entries st (wal.take bs)).last_sequence =
        (wal.getLast hw).sequence
      have htakeall : wal.take bs = wal :=
        List.take_of_length_le (by
          have := List.drop_eq_nil_iff.mp hd
          omega)
      rw [htakeall, replay_last_sequence st wal hw]
    · have hlen2 : (wal.drop bs).length ≤ n := by
        simp only [List.length_drop]
        have := List.length_pos.mpr hw
        omega
      rw [ih bs _ (wal.drop bs) hlen2 hbs hd]
      exact congrArg LogEntry.sequence (getLast_drop_eq wal bs hd hw)

/-- C2: a WAL recovery that read at least one log entry leaves
last_sequence equal to the sequence of the last entry read — including when
that last entry was a schema-mismatched Write or an ignored
AlterSchema/AlterOptions entry, since replay_table_log_entries sets
last_sequence unconditionally after the loop. -/
theorem recover_sets_last_sequence (bs : Nat) (st : ReplayTableState)
    (wal : List LogEntry) (hbs : 0 < bs) (hw : wal ≠ []) :
    (recover_table_from_wal bs st wal).last_sequence = (wal.getLast hw).sequence
    ∧ ∀ st2 : ReplayTableState,
        (replay_table_log_entries st2 wal).last_sequence = (wal.getLast hw).sequence := by
  refine ⟨recover_last_sequence_aux wal.length bs st wal le_rfl hbs hw, ?_⟩
  intro st2
  exact replay_last_sequence st2 wal hw

/-- Witness WAL: a matching Write, a mismatched Write, and a trailing
AlterOptions entry that replay ignores. -/
def sampleWal : List LogEntry :=
  [{ sequence := 4, payload := ReadPayload.Write { schema_version := 2, rows := [10] } },
   { sequence := 5, payload := ReadPayload.Write { schema_version := 1, rows := [11] } },
   { sequence := 6, payload := ReadPayload.AlterOptions 0 }]

/-- Witness table state at schema version 2. -/
def sampleReplayState : ReplayTableState :=
  { schema_version := 2, memtable := [], last_sequence := 0 }

/-- C2 witness: recovering the concrete three-entry WAL in batches of two
sets last_sequence to 6, the sequence of the ignored trailing entry. -/
theorem recover_sets_last_sequence_witness :
    (recover_table_from_wal 2 sampleReplayState sampleWal).last_sequence =
        (sampleWal.getLast (by decide)).sequence
      ∧ ∀ st2 : ReplayTableState,
          (replay_table_log_entries st2 sampleWal).last_sequence =
            (sampleWal.getLast (by decide)).sequence :=
  recover_sets_last_sequence 2 sampleReplayState sampleWal (by decide) (by decide)

/-- The slice of TableData that dropping reads: identity, name (abstracted
to a number) and the dropped flag. -/
structure DropTableData where
  id : Nat
  name : Nat
  dropped : Bool
deriving DecidableEq

/-- DropTableMeta (manifest::meta_edit), as built by Dropper::drop. -/
structure DropTableMeta where
  space_id : Nat
  table_id : Nat
  table_name : Nat
deriving DecidableEq

/-- The state Dropper::drop reads and writes: the space's tables, the
mark_delete_entries_up_to calls issued to the WAL manager as
(table id, bound) pairs, and the manifest edits applied. -/
structure DropEnv where
  space_id : Nat
  tables : List DropTableData
  wal_marked : List (Nat × Nat)
  manifest_edits : List DropTableMeta
deriving DecidableEq

/-- Space::find_table by table name. -/
def findTable (tables : List DropTableData) (name : Nat) : Option DropTableData :=
  tables.find? (fun t => decide (t.name = name))

/-- SequenceNumber::MAX, the WAL trim bound used by drop. -/
def seqMax : Nat := 2 ^ 64 - 1

/-- Modelled from the spec: Manifest::apply_edit of a DropTable update
appends the edit and marks TableData.dropped (spec 4.10 step 4; the
manifest edit applier is not under src/). -/
def applyDropEdit (env : DropEnv) (t : DropTableData) : DropEnv :=
  { env with
    manifest_edits := env.manifest_edits ++
      [{ space_id := env.space_id, table_id := t.id, table_name := t.name }]
    tables := env.tables.map (fun u => if u.id = t.id then { u with dropped := true } else u) }

/-- Dropper::drop (instance/drop.rs): a missing table or an already-dropped
table yields false with no WAL trim and no manifest edit; otherwise the
table's WAL is marked deletable up to MAX, the DropTable edit is applied,
and true is returned. -/
def Dropper.drop (env : DropEnv) (table_name : Nat) : Bool × DropEnv :=
  match findTable env.tables table_name with
  | none => (false, env)
  | some t =>
    if t.dropped then (false, env)
    else
      (true, applyDropEdit { env with wal_marked := env.wal_marked ++ [(t.id, seqMax)] } t)

/-- Helper: marking a table dropped by id does not change names, so
find-by-name commutes with the marking map. -/
theorem findTable_map_mark (tables : List DropTableData) (name : Nat) (tid : Nat) :
    findTable (tables.map (fun u => if u.id = tid then { u with dropped := true } else u)) name
      = (findTable tables name).map (fun u => if u.id = tid then { u with dropped := true } else u) := by
  induction tables with
  | nil => rfl
  | cons u rest ih =>
    unfold findTable at ih ⊢
    simp only [List.map_cons]
    have hname : ((fun u : DropTableData =>
        if u.id = tid then { u with dropped := true } else u) u).name = u.name := by
      by_cases hu : u.id = tid
      · simp [hu]
      · simp [hu]
    by_cases hn : u.name = name
    · rw [List.find?_cons_of_pos _ (by by_cases hu : u.id = tid <;> simp [hu, hn]),
        List.find?_cons_of_pos _ (by simp [hn])]
      simp
    · rw [List.find?_cons_of_neg _ (by by_cases hu : u.id = tid <;> simp [hu, hn]),
        List.find?_cons_of_neg _ (by simp [hn])]
      exact ih

/-- C4: drop returns true iff the table is found in the space and not yet
dropped; when it returns false the environment is untouched (no WAL trim,
no manifest edit); and a second drop of the same table always returns
false. -/
theorem drop_table_idempotent (env : DropEnv) (table_name : Nat) :
    ((Dropper.drop env table_name).1 = true ↔
      ∃ t, findTable env.tables table_name = some t ∧ t.dropped = false)
    ∧ ((Dropper.drop env table_name).1 = false → Dropper.drop env table_name = (false, env))
    ∧ (Dropper.drop (Dropper.drop env table_name).2 table_name).1 = false := by
  refine ⟨?_, ?_, ?_⟩
  · cases hf : findTable env.tables table_name with
    | none => simp [Dropper.drop, hf]
    | some t =>
      cases hdd : t.dropped with
      | true => simp [Dropper.drop, hf, hdd]
      | false => simp [Dropper.drop, hf, hdd]
  · cases hf : findTable env.tables table_name with
    | none => simp [Dropper.drop, hf]
    | some t =>
      cases hdd : t.dropped with
      | true => simp [Dropper.drop, hf, hdd]
      | false => simp [Dropper.drop, hf, hdd]
  · cases hf : findTable env.tables table_name with
    | none => simp [Dropper.drop, hf]
    | some t =>
      cases hdd : t.dropped with
      | true => simp [Dropper.drop, hf, hdd]
      | false =>
        have htab : (applyDropEdit
            { env with wal_marked := env.wal_marked ++ [(t.id, seqMax)] } t).tables =
            env.tables.map (fun u => if u.id = t.id then { u with dropped := true } else u) := rfl
        simp only [Dropper.drop, hf, hdd, Bool.false_eq_true, if_false]
        rw [htab, findTable_map_mark env.tables table_name t.id, hf]
        simp

/-- Helper: unfolded form of the lexicographic strict key order. -/
theorem FileOrdKey.lt_iff (a b : FileOrdKey) :
    FileOrdKey.lt a b = true ↔
      (a.exclusive_end < b.exclusive_end ∨
        (a.exclusive_end = b.exclusive_end ∧
          (a.inclusive_start < b.inclusive_start ∨
            (a.inclusive_start = b.inclusive_start ∧ a.file_id < b.file_id)))) := by
  simp [FileOrdKey.lt]

/-- Helper: the key order is transitive. -/
theorem FileOrdKey.lt_t {a b c : FileOrdKey} (h1 : FileOrdKey.lt a b = true)
    (h2 : FileOrdKey.lt b c = true) : FileOrdKey.lt a c = true := by
  rw [FileOrdKey.lt_iff] at h1 h2 ⊢
  omega

/-- Helper: the key order is irreflexive. -/
theorem FileOrdKey.lt_irrefl (a : FileOrdKey) : ¬ FileOrdKey.lt a a = true := by
  rw [FileOrdKey.lt_iff]
  omega

/-- Helper: the key order is total. -/
theorem FileOrdKey.lt_total (a b : FileOrdKey) :
    FileOrdKey.lt a b = true ∨ a = b ∨ FileOrdKey.lt b a = true := by
  cases a with
  | mk ae as ai =>
    cases b with
    | mk be bs bi =>
      simp only [FileOrdKey.lt_iff, FileOrdKey.mk.injEq]
      omega

/-- Helper: membership in mapInsert when the inserted key is fresh. -/
theorem mem_mapInsert (f : FileHandle) (l : List FileHandle)
    (hk : ∀ g ∈ l, FileOrdKey.key_of g ≠ FileOrdKey.key_of f) :
    ∀ x, x ∈ mapInsert f l ↔ (x = f ∨ x ∈ l) := by
  induction l with
  | nil => intro x; simp [mapInsert]
  | cons g rest ih =>
    intro x
    have hkg : FileOrdKey.key_of g ≠ FileOrdKey.key_of f := hk g (List.mem_cons_self g rest)
    by_cases hlt : FileOrdKey.lt (FileOrdKey.key_of f) (FileOrdKey.key_of g) = true
    · simp [mapInsert, hlt]
    · have hne : ¬ FileOrdKey.key_of f = FileOrdKey.key_of g := fun hh => hkg hh.symm
      simp only [mapInsert, if_neg hlt, if_neg hne]
      simp only [List.mem_cons]
      rw [ih (fun g hg => hk g (List.mem_cons_of_mem _ hg)) x]
      tauto

/-- Helper: mapInsert of a fresh key keeps the value list strictly
sorted. -/
theorem pairwise_mapInsert (f : FileHandle) (l : List FileHandle)
    (hpw : l.Pairwise (fun a b => FileOrdKey.lt (FileOrdKey.key_of a) (FileOrdKey.key_of b) = true))
    (hk : ∀ g ∈ l, FileOrdKey.key_of g ≠ FileOrdKey.key_of f) :
    (mapInsert f l).Pairwise
      (fun a b => FileOrdKey.lt (FileOrdKey.key_of a) (FileOrdKey.key_of b) = true) := by
  induction l with
  | nil => simp [mapInsert]
  | cons g rest ih =>
    rcases List.pairwise_cons.mp hpw with ⟨hg, hrest⟩
    have hkg : FileOrdKey.key_of g ≠ FileOrdKey.key_of f := hk g (List.mem_cons_self g rest)
    by_cases hlt : FileOrdKey.lt (FileOrdKey.key_of f) (FileOrdKey.key_of g) = true
    · simp only [mapInsert, if_pos hlt]
      refine List.pairwise_cons.mpr ⟨?_, hpw⟩
      intro y hy
      rcases List.mem_cons.mp hy with rfl | hy2
      · exact hlt
      · exact FileOrdKey.lt_t hlt (hg y hy2)
    · have hne : ¬ FileOrdKey.key_of f = FileOrdKey.key_of g := fun hh => hkg hh.symm
      simp only [mapInsert, if_neg hlt, if_neg hne]
      refine List.pairwise_cons.mpr ⟨?_, ih hrest (fun u hu => hk u (List.mem_cons_of_mem _ hu))⟩
      intro y hy
      rw [mem_mapInsert f rest (fun u hu => hk u (List.mem_cons_of_mem _ hu)) y] at hy
      rcases hy with hyf | hy2
      · rw [hyf]
        rcases FileOrdKey.lt_total (FileOrdKey.key_of f) (FileOrdKey.key_of g) with
          h | h | h
        · exact absurd h hlt
        · exact absurd h hne
        · exact h
      · exact hg y hy2

/-- Helper: erasing by id from a list of handles with pairwise-distinct ids
removes exactly the handles carrying that id. -/
theorem mem_erase_id {l : List FileHandle}
    (hpw : l.Pairwise (fun a b => a.id ≠ b.id)) (fid : Nat) (f : FileHandle) :
    f ∈ l.eraseP (fun g => decide (g.id = fid)) ↔ (f ∈ l ∧ f.id ≠ fid) := by
  induction l with
  | nil => simp
  | cons a rest ih =>
    rcases List.pairwise_cons.mp hpw with ⟨ha, hrest⟩
    by_cases hp : a.id = fid
    · rw [List.eraseP_cons_of_pos (by simp [hp])]
      constructor
      · intro hf
        refine ⟨List.mem_cons_of_mem _ hf, ?_⟩
        intro hfid
        exact ha f hf (by rw [hp, hfid])
      · rintro ⟨hmem, hne⟩
        rcases List.mem_cons.mp hmem with rfl | hmem2
        · exact absurd hp hne
        · exact hmem2
    · rw [List.eraseP_cons_of_neg (by simp [hp])]
      simp only [List.mem_cons]
      rw [ih hrest]
      constructor
      · rintro (rfl | ⟨hm, hne⟩)
        · exact ⟨Or.inl rfl, hp⟩
        · exact ⟨Or.inr hm, hne⟩
      · rintro ⟨rfl | hm, hne⟩
        · exact Or.inl rfl
        · exact Or.inr ⟨hm, hne⟩

/-- Helper: erasing by key from a strictly key-sorted list removes exactly
the handles carrying that key. -/
theorem mem_erase_key {l : List FileHandle}
    (hpw : l.Pairwise
      (fun a b => FileOrdKey.lt (FileOrdKey.key_of a) (FileOrdKey.key_of b) = true))
    (k : FileOrdKey) (f : FileHandle) :
    f ∈ l.eraseP (fun g => decide (FileOrdKey.key_of g = k)) ↔
      (f ∈ l ∧ FileOrdKey.key_of f ≠ k) := by
  induction l with
  | nil => simp
  | cons a rest ih =>
    rcases List.pairwise_cons.mp hpw with ⟨ha, hrest⟩
    by_cases hp : FileOrdKey.key_of a = k
    · rw [List.eraseP_cons_of_pos (by simp [hp])]
      constructor
      · intro hf
        refine ⟨List.mem_cons_of_mem _ hf, ?_⟩
        intro hfk
        have := ha f hf
        rw [hfk, ← hp] at this
        exact FileOrdKey.lt_irrefl (FileOrdKey.key_of a) this
      · rintro ⟨hmem, hne⟩
        rcases List.mem_cons.mp hmem with rfl | hmem2
        · exact absurd hp hne
        · exact hmem2
    · rw [List.eraseP_cons_of_neg (by simp [hp])]
      simp only [List.mem_cons]
      rw [ih hrest]
      constructor
      · rintro (rfl | ⟨hm, hne⟩)
        · exact ⟨Or.inl rfl, hp⟩
        · exact ⟨Or.inr hm, hne⟩
      · rintro ⟨rfl | hm, hne⟩
        · exact Or.inl rfl
        · exact Or.inr ⟨hm, hne⟩

/-- Helper: in a list with pairwise-distinct ids, two members with the same
id are the same handle. -/
theorem eq_of_mem_pairwise_ne {l : List FileHandle}
    (h : l.Pairwise (fun a b => a.id ≠ b.id)) {x y : FileHandle}
    (hx : x ∈ l) (hy : y ∈ l) (hid : x.id = y.id) : x = y := by
  induction l with
  | nil => cases hx
  | cons a rest ih =>
    rcases List.pairwise_cons.mp h with ⟨ha, hrest⟩
    rcases List.mem_cons.mp hx with rfl | hx2
    · rcases List.mem_cons.mp hy with rfl | hy2
      · rfl
      · exact absurd hid (ha y hy2)
    · rcases List.mem_cons.mp hy with rfl | hy2
      · exact absurd hid.symm (ha x hx2)
      · exact ih hrest hx2 hy2

/-- Well-formed FileHandleSet: the two indexes hold the same handles, the
ordered map is strictly key-sorted and the id index has pairwise-distinct
ids. -/
def goodSet (s : FileHandleSet) : Prop :=
  (∀ f, f ∈ s.file_map ↔ f ∈ s.id_to_files)
  ∧ s.file_map.Pairwise
      (fun a b => FileOrdKey.lt (FileOrdKey.key_of a) (FileOrdKey.key_of b) = true)
  ∧ s.id_to_files.Pairwise (fun a b => a.id ≠ b.id)

/-- Helper: the empty set is well formed. -/
theorem goodSet_empty : goodSet emptyFileHandleSet := by
  refine ⟨?_, ?_, ?_⟩ <;> simp [emptyFileHandleSet]

/-- Helper: insert of a fresh id preserves well-formedness and adds the
handle to both indexes. -/
theorem goodSet_insert {s : FileHandleSet} (hs : goodSet s) (f : FileHandle)
    (hfresh : ∀ g ∈ s.id_to_files, g.id ≠ f.id) :
    goodSet (s.insert f)
    ∧ (∀ x, x ∈ (s.insert f).file_map ↔ (x = f ∨ x ∈ s.file_map))
    ∧ (∀ x, x ∈ (s.insert f).id_to_files ↔ (x = f ∨ x ∈ s.id_to_files)) := by
  rcases hs with ⟨hiff, hmap, hids⟩
  have hkfresh : ∀ g ∈ s.file_map, FileOrdKey.key_of g ≠ FileOrdKey.key_of f := by
    intro g hg hkey
    have hgid : g.id = f.id := congrArg FileOrdKey.file_id hkey
    exact hfresh g ((hiff g).mp hg) hgid
  have hany : s.id_to_files.any (fun g => decide (g.id = f.id)) = false := by
    rw [List.any_eq_false]
    intro g hg
    simp only [decide_eq_true_eq]
    exact hfresh g hg
  have hhash : hashInsert f s.id_to_files = f :: s.id_to_files := by
    unfold hashInsert
    rw [hany]
    rfl
  have hmapmem := mem_mapInsert f s.file_map hkfresh
  refine ⟨⟨?_, ?_, ?_⟩, ?_, ?_⟩
  · intro x
    show x ∈ mapInsert f s.file_map ↔ x ∈ hashInsert f s.id_to_files
    rw [hhash, hmapmem x, List.mem_cons]
    rw [hiff x]
  · exact pairwise_mapInsert f s.file_map hmap hkfresh
  · show (hashInsert f s.id_to_files).Pairwise (fun a b => a.id ≠ b.id)
    rw [hhash]
    refine List.pairwise_cons.mpr ⟨?_, hids⟩
    intro g hg hgf
    exact hfresh g hg hgf.symm
  · exact hmapmem
  · intro x
    show x ∈ hashInsert f s.id_to_files ↔ _
    rw [hhash, List.mem_cons]

/-- Helper: one removal step preserves well-formedness and removes from
both indexes exactly the handles carrying the removed id. -/
theorem goodSet_removeStep {s : FileHandleSet} (hs : goodSet s) (fid : Nat) :
    goodSet (removeFileStep s fid)
    ∧ (∀ x, x ∈ (removeFileStep s fid).file_map ↔ (x ∈ s.file_map ∧ x.id ≠ fid))
    ∧ (∀ x, x ∈ (removeFileStep s fid).id_to_files ↔ (x ∈ s.id_to_files ∧ x.id ≠ fid)) := by
  rcases hs with ⟨hiff, hmap, hids⟩
  cases hfind : s.id_to_files.find? (fun g => decide (g.id = fid)) with
  | none =>
    have habsent : ∀ g ∈ s.id_to_files, g.id ≠ fid := by
      intro g hg
      have := List.find?_eq_none.mp hfind g hg
      simpa using this
    unfold removeFileStep
    rw [hfind]
    refine ⟨⟨hiff, hmap, hids⟩, ?_, ?_⟩
    · intro x
      constructor
      · intro hx
        exact ⟨hx, habsent x ((hiff x).mp hx)⟩
      · exact fun hx => hx.1
    · intro x
      constructor
      · intro hx
        exact ⟨hx, habsent x hx⟩
      · exact fun hx => hx.1
  | some file =>
    have hfmem : file ∈ s.id_to_files := List.mem_of_find?_eq_some hfind
    have hfid : file.id = fid := by
      have := List.find?_some hfind
      simpa using this
    have hidmem := fun x => mem_erase_id hids fid x
    have hkeymem := fun x => mem_erase_key hmap (FileOrdKey.key_of file) x
    have hkey_to_id : ∀ x, FileOrdKey.key_of x = FileOrdKey.key_of file → x.id = fid := by
      intro x hk
      rw [← hfid]
      exact congrArg FileOrdKey.file_id hk
    have hid_to_key : ∀ x, x ∈ s.file_map → x.id = fid →
        FileOrdKey.key_of x = FileOrdKey.key_of file := by
      intro x hx hxid
      have hxhash : x ∈ s.id_to_files := (hiff x).mp hx
      have hxf : x = file :=
        eq_of_mem_pairwise_ne hids hxhash hfmem (by rw [hxid, hfid])
      rw [hxf]
    unfold removeFileStep
    rw [hfind]
    have hmapmem : ∀ x, x ∈ s.file_map.eraseP
        (fun g => decide (FileOrdKey.key_of g = FileOrdKey.key_of file)) ↔
        (x ∈ s.file_map ∧ x.id ≠ fid) := by
      intro x
      rw [hkeymem x]
      constructor
      · rintro ⟨hm, hk⟩
        refine ⟨hm, ?_⟩
        intro hxid
        exact hk (hid_to_key x hm hxid)
      · rintro ⟨hm, hxid⟩
        refine ⟨hm, ?_⟩
        intro hk
        exact hxid (hkey_to_id x hk)
    refine ⟨⟨?_, ?_, ?_⟩, hmapmem, hidmem⟩
    · intro x
      rw [hmapmem x, hidmem x, hiff x]
    · exact List.Pairwise.sublist (List.eraseP_sublist _) hmap
    · exact List.Pairwise.sublist (List.eraseP_sublist _) hids

/-- Helper: remove_by_ids preserves well-formedness and removes from both
indexes exactly the handles whose id is listed. -/
theorem goodSet_remove_by_ids (file_ids : List Nat) :
    ∀ s : FileHandleSet, goodSet s →
      goodSet (s.remove_by_ids file_ids)
      ∧ (∀ x, x ∈ (s.remove_by_ids file_ids).file_map ↔ (x ∈ s.file_map ∧ x.id ∉ file_ids))
      ∧ (∀ x, x ∈ (s.remove_by_ids file_ids).id_to_files ↔
          (x ∈ s.id_to_files ∧ x.id ∉ file_ids)) := by
  induction file_ids with
  | nil =>
    intro s hs
    refine ⟨hs, ?_, ?_⟩ <;> intro x <;> simp [FileHandleSet.remove_by_ids]
  | cons i rest ih =>
    intro s hs
    rcases goodSet_removeStep hs i with ⟨hg1, hm1, hh1⟩
    rcases ih (removeFileStep s i) hg1 with ⟨hg2, hm2, hh2⟩
    have hfold : s.remove_by_ids (i :: rest) = (removeFileStep s i).remove_by_ids rest := rfl
    rw [hfold]
    refine ⟨hg2, ?_, ?_⟩
    · intro x
      rw [hm2 x, hm1 x]
      simp only [List.mem_cons]
      tauto
    · intro x
      rw [hh2 x, hh1 x]
      simp only [List.mem_cons]
      tauto

/-- An operation on a FileHandleSet: insert one handle or remove a batch of
ids. -/
inductive FileSetOp where
  | ins : FileHandle → FileSetOp
  | rem : List Nat → FileSetOp
deriving DecidableEq

/-- Apply one operation. -/
def applyFileSetOp (s : FileHandleSet) (op : FileSetOp) : FileHandleSet :=
  match op with
  | FileSetOp.ins f => s.insert f
  | FileSetOp.rem ids => s.remove_by_ids ids

/-- Run a sequence of operations from the empty set. -/
def execFileSetOps (ops : List FileSetOp) : FileHandleSet :=
  ops.foldl applyFileSetOp emptyFileHandleSet

/-- The live files stay pairwise-distinct in id: every inserted handle's id
is fresh at the time of its insert. -/
def validFileSetOpsFrom (s : FileHandleSet) : List FileSetOp → Bool
  | [] => true
  | (FileSetOp.ins f) :: ops =>
    s.id_to_files.all (fun g => decide (g.id ≠ f.id)) && validFileSetOpsFrom (s.insert f) ops
  | (FileSetOp.rem ids) :: ops => validFileSetOpsFrom (s.remove_by_ids ids) ops

/-- Helper: a valid operation sequence keeps the set well formed. -/
theorem goodSet_exec (ops : List FileSetOp) :
    ∀ s : FileHandleSet, goodSet s → validFileSetOpsFrom s ops = true →
      goodSet (ops.foldl applyFileSetOp s) := by
  induction ops with
  | nil => intro s hs _; exact hs
  | cons op rest ih =>
    intro s hs hv
    cases op with
    | ins f =>
      have hv2 := hv
      unfold validFileSetOpsFrom at hv2
      rw [Bool.and_eq_true] at hv2
      have hfresh : ∀ g ∈ s.id_to_files, g.id ≠ f.id := by
        intro g hg
        have := List.all_eq_true.mp hv2.1 g hg
        simpa using this
      exact ih (s.insert f) (goodSet_insert hs f hfresh).1 hv2.2
    | rem ids =>
      have hv2 := hv
      unfold validFileSetOpsFrom at hv2
      exact ih (s.remove_by_ids ids) (goodSet_remove_by_ids ids s hs).1 hv2

/-- C10: under pairwise-distinct live file ids, every interleaving of
insert and remove_by_ids keeps the ordered map and the id index holding
exactly the same handles; a removal by id removes the file from both
indexes; and latest never returns a file just removed by id. -/
theorem file_handle_set_indexes_agree (ops : List FileSetOp)
    (hvalid : validFileSetOpsFrom emptyFileHandleSet ops = true) :
    (∀ f, f ∈ (execFileSetOps ops).file_map ↔ f ∈ (execFileSetOps ops).id_to_files)
    ∧ (∀ ids f, f.id ∈ ids →
        f ∉ ((execFileSetOps ops).remove_by_ids ids).file_map
        ∧ f ∉ ((execFileSetOps ops).remove_by_ids ids).id_to_files)
    ∧ (∀ ids f, ((execFileSetOps ops).remove_by_ids ids).latest = some f → f.id ∉ ids) := by
  have hgood : goodSet (execFileSetOps ops) :=
    goodSet_exec ops emptyFileHandleSet goodSet_empty hvalid
  refine ⟨hgood.1, ?_, ?_⟩
  · intro ids f hf
    rcases goodSet_remove_by_ids ids (execFileSetOps ops) hgood with ⟨_, hm, hh⟩
    constructor
    · intro hmem
      exact ((hm f).mp hmem).2 hf
    · intro hmem
      exact ((hh f).mp hmem).2 hf
  · intro ids f hlatest
    rcases goodSet_remove_by_ids ids (execFileSetOps ops) hgood with ⟨_, hm, _⟩
    have hmem : f ∈ ((execFileSetOps ops).remove_by_ids ids).file_map := by
      unfold FileHandleSet.latest at hlatest
      exact List.mem_of_mem_getLast? (by rw [hlatest]; exact rfl)
    exact ((hm f).mp hmem).2

/-- C10 witness: run insert sampleFileA, insert sampleFileB, then remove
id 1; validity of the interleaving is decided concretely. -/
theorem file_handle_set_indexes_agree_witness :
    (∀ f, f ∈ (execFileSetOps
        [FileSetOp.ins sampleFileA, FileSetOp.ins sampleFileB, FileSetOp.rem [1]]).file_map ↔
        f ∈ (execFileSetOps
          [FileSetOp.ins sampleFileA, FileSetOp.ins sampleFileB, FileSetOp.rem [1]]).id_to_files)
    ∧ (∀ ids f, f.id ∈ ids →
        f ∉ ((execFileSetOps
            [FileSetOp.ins sampleFileA, FileSetOp.ins sampleFileB,
              FileSetOp.rem [1]]).remove_by_ids ids).file_map
        ∧ f ∉ ((execFileSetOps
            [FileSetOp.ins sampleFileA, FileSetOp.ins sampleFileB,
              FileSetOp.rem [1]]).remove_by_ids ids).id_to_files)
    ∧ (∀ ids f, ((execFileSetOps
        [FileSetOp.ins sampleFileA, FileSetOp.ins sampleFileB,
          FileSetOp.rem [1]]).remove_by_ids ids).latest = some f → f.id ∉ ids) :=
  file_handle_set_indexes_agree
    [FileSetOp.ins sampleFileA, FileSetOp.ins sampleFileB, FileSetOp.rem [1]] (by decide)

/-- MemTableState (table::version), as partitioning sees it: its time range
and an opaque memtable reference. -/
structure MemTableState where
  time_range : TimeRange
  mem : Nat
deriving DecidableEq

/-- SamplingMemTable (table::version), opaque to partitioning. -/
structure SamplingMemTable where
  mem : Nat
deriving DecidableEq

/-- Modelled from the spec: ReadView (table::version is not under src/):
the optional sampling memtable, the memtables, and one sst list per
level. -/
structure ReadView where
  sampling_mem : Option SamplingMemTable
  memtables : List MemTableState
  leveled_ssts : List (List FileHandle)
deriving DecidableEq

/-- ReadView::contains_sampling. -/
def ReadView.contains_sampling (v : ReadView) : Bool := v.sampling_mem.isSome

/-- Modelled from the spec: ReadView::default keeps one empty sst list per
level so that leveled_ssts[level].push is in bounds. -/
def defaultReadView (num_levels : Nat) : ReadView :=
  { sampling_mem := none, memtables := [], leveled_ssts := List.replicate num_levels [] }

/-- TableVersion (table::version is not under src/), as the read path uses
it: sampling memtable, memtables, and the level handlers. -/
structure TableVersion where
  sampling_mem : Option SamplingMemTable
  memtables : List MemTableState
  levels : List LevelHandler
deriving DecidableEq

/-- Modelled from the spec: TableVersion::pick_read_view returns the view
filtered to the range — the memtables and the files of every level that
intersect the query range (spec 4.3). -/
def pick_read_view (version : TableVersion) (time_range : TimeRange) : ReadView :=
  { sampling_mem := version.sampling_mem
    memtables := version.memtables.filter (fun m => m.time_range.intersect_with time_range)
    leveled_ssts := version.levels.map
      (fun lh => lh.files.file_map.filter (fun f => f.intersect_with_time_range time_range)) }

/-- TableOptions as the read path consumes it: the optional segment
duration, in the same integer unit as timestamps. -/
structure TableOptions where
  segment_duration : Option Int
deriving DecidableEq

/-- BTreeMap of partition_ssts_and_memtables, embedded as a key-sorted
association list: insert-or-update at an integer key, with the given value
for a missing key. -/
def omapInsertWith {V : Type} (k : Int) (upd : V → V) (dflt : V) :
    List (Int × V) → List (Int × V)
  | [] => [(k, upd dflt)]
  | (k1, v) :: rest =>
    if k < k1 then (k, upd dflt) :: (k1, v) :: rest
    else if k = k1 then (k1, upd v) :: rest
    else (k1, v) :: omapInsertWith k upd dflt rest

/-- entry.leveled_ssts[level].push(file). -/
def pushSst (level : Nat) (file : FileHandle) (v : ReadView) : ReadView :=
  { v with leveled_ssts :=
      v.leveled_ssts.set level ((v.leveled_ssts.getD level []) ++ [file]) }

/-- entry.memtables.push(memtable). -/
def pushMem (m : MemTableState) (v : ReadView) : ReadView :=
  { v with memtables := v.memtables ++ [m] }

/-- The (level, file) pairs of a read view, level-major and in order, as
the enumerate loop of partition_ssts_and_memtables walks them. -/
def sstItems (v : ReadView) : List (Nat × FileHandle) :=
  v.leveled_ssts.enum.flatMap (fun p => p.2.map (fun f => (p.1, f)))

/-- Instance::partition_ssts_and_memtables (instance/read.rs): an unknown
segment duration or a sampling memtable in the picked view yields the
single unpartitioned view; otherwise the ssts (level by level) and then
the memtables are inserted into a BTreeMap keyed by their range start
truncated by the segment duration, and the map's values are returned in
ascending key order. -/
def partition_ssts_and_memtables (time_range : TimeRange) (version : TableVersion)
    (table_options : TableOptions) : List ReadView :=
  let read_view := pick_read_view version time_range
  match table_options.segment_duration with
  | none => [read_view]
  | some segment_duration =>
    if read_view.contains_sampling then [read_view]
    else
      let dflt := defaultReadView read_view.leveled_ssts.length
      let m1 := (sstItems read_view).foldl
        (fun m p => omapInsertWith
          (truncate_by p.2.time_range.inclusive_start segment_duration)
          (pushSst p.1 p.2) dflt m) []
      let m2 := read_view.memtables.foldl
        (fun m mt => omapInsertWith
          (truncate_by mt.time_range.inclusive_start segment_duration)
          (pushMem mt) dflt m) m1
      m2.map (fun p => p.2)

/-- Instance::build_partitioned_streams (instance/read.rs): reverse the
iterator list when read_parallelism is 1 and the order is descending, then
round-robin iterator i into lane i mod read_parallelism; every lane, empty
or not, becomes one output stream, identified here with its iterator
list. -/
def build_partitioned_streams {I : Type} (read_parallelism : Nat) (desc : Bool)
    (partitioned_iters : List I) : List (List I) :=
  let iters := if read_parallelism = 1 ∧ desc = true then partitioned_iters.reverse
    else partitioned_iters
  iters.enum.foldl
    (fun lanes p => lanes.set (p.1 % read_parallelism)
      ((lanes.getD (p.1 % read_parallelism) []) ++ [p.2]))
    (List.replicate read_parallelism ([] : List I))

/-- Instance::partitioned_read_from_table (instance/read.rs): both the
merge path and the chain path build exactly one iterator per sub-view of
partition_ssts_and_memtables, so an iterator is identified with its
sub-view. -/
def partitioned_read_from_table (read_parallelism : Nat) (desc : Bool)
    (time_range : TimeRange) (version : TableVersion) (table_options : TableOptions) :
    List (List ReadView) :=
  build_partitioned_streams read_parallelism desc
    (partition_ssts_and_memtables time_range version table_options)

/-- Sorted insert of a key: the key trace of omapInsertWith. -/
def insKey (k : Int) : List Int → List Int
  | [] => [k]
  | k1 :: rest =>
    if k < k1 then k :: k1 :: rest
    else if k = k1 then k1 :: rest
    else k1 :: insKey k rest

/-- Helper: membership in insKey. -/
theorem mem_insKey (k : Int) : ∀ (ks : List Int) (x : Int),
    x ∈ insKey k ks ↔ (x = k ∨ x ∈ ks) := by
  intro ks
  induction ks with
  | nil => intro x; simp [insKey]
  | cons k1 rest ih =>
    intro x
    by_cases h1 : k < k1
    · simp only [insKey, if_pos h1, List.mem_cons]
    · by_cases h2 : k = k1
      · subst h2
        simp only [insKey, if_neg h1, eq_self_iff_true, if_true, List.mem_cons]
        tauto
      · simp only [insKey, if_neg h1, if_neg h2, List.mem_cons, ih x]
        tauto

/-- Helper: insKey keeps the key list strictly sorted. -/
theorem pairwise_insKey (k : Int) : ∀ ks : List Int, ks.Pairwise (· < ·) →
    (insKey k ks).Pairwise (· < ·) := by
  intro ks
  induction ks with
  | nil => intro _; simp [insKey]
  | cons k1 rest ih =>
    intro hs
    rcases List.pairwise_cons.mp hs with ⟨h1, hrest⟩
    by_cases hlt : k < k1
    · simp only [insKey, if_pos hlt]
      refine List.pairwise_cons.mpr ⟨?_, hs⟩
      intro y hy
      rcases List.mem_cons.mp hy with rfl | hy2
      · exact hlt
      · exact lt_trans hlt (h1 y hy2)
    · by_cases heq : k = k1
      · simp only [insKey, if_neg hlt, if_pos heq]
        exact hs
      · simp only [insKey, if_neg hlt, if_neg heq]
        refine List.pairwise_cons.mpr ⟨?_, ih hrest⟩
        intro y hy
        rcases (mem_insKey k rest y).mp hy with rfl | hy2
        · omega
        · exact h1 y hy2

/-- Helper: omapInsertWith on a canonical key-listed map. -/
theorem omapInsertWith_map {V : Type} (k : Int) (upd : V → V) (dflt : V) :
    ∀ (ks : List Int) (g : Int → V), ks.Pairwise (· < ·) →
      omapInsertWith k upd dflt (ks.map (fun k1 => (k1, g k1))) =
        (insKey k ks).map (fun k1 =>
          (k1, if k1 = k then upd (if k ∈ ks then g k else dflt) else g k1)) := by
  intro ks
  induction ks with
  | nil =>
    intro g _
    simp [omapInsertWith, insKey]
  | cons k1 rest ih =>
    intro g hs
    rcases List.pairwise_cons.mp hs with ⟨h1, hrest⟩
    by_cases hlt : k < k1
    · have hmem : k ∉ k1 :: rest := by
        intro hk
        rcases List.mem_cons.mp hk with rfl | hk2
        · omega
        · have := h1 k hk2
          omega
      have hk1ne : ¬ (k1 = k) := by omega
      simp only [List.map_cons, omapInsertWith, if_pos hlt, insKey, eq_self_iff_true, if_true]
      rw [if_neg hmem, if_neg hk1ne]
      congr 1
      congr 1
      apply (List.map_eq_map_iff).mpr
      intro y hy
      have hyk : ¬ y = k := by
        have := h1 y hy
        omega
      rw [if_neg hyk]
    · by_cases heq : k = k1
      · subst heq
        have hmem : k ∈ k :: rest := List.mem_cons_self k rest
        simp only [List.map_cons, omapInsertWith, insKey, if_neg hlt, eq_self_iff_true,
          if_true]
        rw [if_pos hmem]
        congr 1
        apply (List.map_eq_map_iff).mpr
        intro y hy
        have hyk : ¬ y = k := by
          have := h1 y hy
          omega
        rw [if_neg hyk]
      · have hk1k : ¬ (k1 = k) := by omega
        simp only [List.map_cons, omapInsertWith, insKey, if_neg hlt, if_neg heq,
          List.map_cons]
        rw [if_neg hk1k]
        congr 1
        rw [ih g hrest]
        apply (List.map_eq_map_iff).mpr
        intro y hy
        by_cases hyk : y = k
        · rw [if_pos hyk, if_pos hyk]
          have hiff2 : (k ∈ k1 :: rest) ↔ (k ∈ rest) := by
            constructor
            · intro hk
              rcases List.mem_cons.mp hk with rfl | hk2
              · exact absurd rfl hk1k
              · exact hk2
            · exact fun hk => List.mem_cons_of_mem _ hk
          rw [if_congr hiff2 rfl rfl]
        · rw [if_neg hyk, if_neg hyk]

/-- The key trace of folding omapInsertWith over a list of items. -/
def foldKeys {A : Type} (key : A → Int) (items : List A) (ks : List Int) : List Int :=
  items.foldl (fun ks a => insKey (key a) ks) ks

/-- Fold the per-item updates of the items assigned to one key. -/
def bucketAcc {A V : Type} (key : A → Int) (updi : A → V → V) (items : List A)
    (v0 : V) (k : Int) : V :=
  (items.filter (fun a => decide (key a = k))).foldl (fun v a => updi a v) v0

/-- Helper: membership in foldKeys. -/
theorem mem_foldKeys {A : Type} (key : A → Int) : ∀ (items : List A) (ks : List Int) (k : Int),
    k ∈ foldKeys key items ks ↔ (k ∈ ks ∨ ∃ a ∈ items, key a = k) := by
  intro items
  induction items with
  | nil => intro ks k; simp [foldKeys]
  | cons a rest ih =>
    intro ks k
    show k ∈ foldKeys key rest (insKey (key a) ks) ↔ _
    rw [ih (insKey (key a) ks) k, mem_insKey]
    constructor
    · rintro ((rfl | hk) | ⟨b, hb, hkb⟩)
      · exact Or.inr ⟨a, List.mem_cons_self a rest, rfl⟩
      · exact Or.inl hk
      · exact Or.inr ⟨b, List.mem_cons_of_mem _ hb, hkb⟩
    · rintro (hk | ⟨b, hb, hkb⟩)
      · exact Or.inl (Or.inr hk)
      · rcases List.mem_cons.mp hb with rfl | hb2
        · exact Or.inl (Or.inl hkb.symm)
        · exact Or.inr ⟨b, hb2, hkb⟩

/-- Helper: foldKeys keeps the key list strictly sorted. -/
theorem pairwise_foldKeys {A : Type} (key : A → Int) : ∀ (items : List A) (ks : List Int),
    ks.Pairwise (· < ·) → (foldKeys key items ks).Pairwise (· < ·) := by
  intro items
  induction items with
  | nil => intro ks hs; exact hs
  | cons a rest ih =>
    intro ks hs
    exact ih (insKey (key a) ks) (pairwise_insKey (key a) ks hs)

/-- Helper: folding omapInsertWith over items yields exactly one entry per
key of the fold's key trace, holding the per-key fold of the updates. -/
theorem foldl_omapInsertWith {A V : Type} (key : A → Int) (updi : A → V → V) (dflt : V) :
    ∀ (items : List A) (ks : List Int) (g : Int → V), ks.Pairwise (· < ·) →
      items.foldl (fun m a => omapInsertWith (key a) (updi a) dflt m)
          (ks.map (fun k => (k, g k)))
        = (foldKeys key items ks).map
            (fun k => (k, bucketAcc key updi items (if k ∈ ks then g k else dflt) k)) := by
  intro items
  induction items with
  | nil =>
    intro ks g hs
    show ks.map _ = ks.map _
    apply (List.map_eq_map_iff).mpr
    intro k hk
    rw [if_pos hk]
    simp [bucketAcc]
  | cons a rest ih =>
    intro ks g hs
    rw [List.foldl_cons]
    rw [omapInsertWith_map (key a) (updi a) dflt ks g hs]
    rw [ih (insKey (key a) ks)
      (fun k1 => if k1 = key a then updi a (if key a ∈ ks then g (key a) else dflt) else g k1)
      (pairwise_insKey (key a) ks hs)]
    show (foldKeys key rest (insKey (key a) ks)).map _ =
      (foldKeys key rest (insKey (key a) ks)).map _
    apply (List.map_eq_map_iff).mpr
    intro k _
    apply congrArg (fun v => (k, v))
    unfold bucketAcc
    by_cases hak : key a = k
    · rw [List.filter_cons_of_pos (by simp [hak])]
      rw [List.foldl_cons]
      rw [if_pos ((mem_insKey (key a) ks k).mpr (Or.inl hak.symm))]
      rw [if_pos hak.symm]
      rw [hak]
    · rw [List.filter_cons_of_neg (by simp [hak])]
      have hmem : (k ∈ insKey (key a) ks) ↔ (k ∈ ks) := by
        rw [mem_insKey]
        constructor
        · rintro (rfl | hk)
          · exact absurd rfl hak
          · exact hk
        · exact fun hk => Or.inr hk
      by_cases hk : k ∈ ks
      · rw [if_pos (hmem.mpr hk), if_pos hk]
        rw [if_neg (fun hh => hak hh.symm)]
      · rw [if_neg (fun hh => hk (hmem.mp hh)), if_neg hk]

/-- Helper: getD of set at the written index. -/
theorem getD_set_self {β : Type} : ∀ (L : List (List β)) (i : Nat) (x : List β),
    i < L.length → (L.set i x).getD i [] = x := by
  intro L
  induction L with
  | nil =>
    intro i x h
    simp at h
  | cons a rest ih =>
    intro i x h
    cases i with
    | zero => rfl
    | succ n => exact ih n x (Nat.lt_of_succ_lt_succ h)

/-- Helper: getD of set at another index. -/
theorem getD_set_ne {β : Type} : ∀ (L : List (List β)) (i j : Nat) (x : List β),
    j ≠ i → (L.set i x).getD j [] = L.getD j [] := by
  intro L
  induction L with
  | nil => intro i j x _; rfl
  | cons a rest ih =>
    intro i j x h
    cases i with
    | zero =>
      cases j with
      | zero => exact absurd rfl h
      | succ m => rfl
    | succ n =>
      cases j with
      | zero => rfl
      | succ m => exact ih n m x (fun hh => h (congrArg Nat.succ hh))

/-- Helper: getD of a replicate of empty lists is empty at every index. -/
theorem getD_replicate_nil {β : Type} : ∀ (n l : Nat),
    (List.replicate n ([] : List β)).getD l [] = [] := by
  intro n
  induction n with
  | zero => intro l; cases l <;> rfl
  | succ m ih =>
    intro l
    cases l with
    | zero => rfl
    | succ l2 => exact ih l2

/-- Helper: round-robin lane fold — the fold keeps the lane count and each
lane collects, in order, the values of the items assigned to it. -/
theorem foldl_lane {β : Type} : ∀ (items : List (Nat × β)) (L : List (List β)),
    ((items.foldl (fun ls q => ls.set q.1 ((ls.getD q.1 []) ++ [q.2])) L).length = L.length)
    ∧ ((∀ q ∈ items, q.1 < L.length) →
        ∀ l, (items.foldl (fun ls q => ls.set q.1 ((ls.getD q.1 []) ++ [q.2])) L).getD l []
          = L.getD l [] ++ (items.filter (fun q => decide (q.1 = l))).map Prod.snd) := by
  intro items
  induction items with
  | nil =>
    intro L
    refine ⟨rfl, ?_⟩
    intro _ l
    simp
  | cons q rest ih =>
    intro L
    constructor
    · show (rest.foldl _ (L.set q.1 ((L.getD q.1 []) ++ [q.2]))).length = L.length
      rw [(ih (L.set q.1 ((L.getD q.1 []) ++ [q.2]))).1, List.length_set]
    · intro hq l
      have hq1 : q.1 < L.length := hq q (List.mem_cons_self q rest)
      have hrest : ∀ r ∈ rest, r.1 < (L.set q.1 ((L.getD q.1 []) ++ [q.2])).length := by
        rw [List.length_set]
        intro r hr
        exact hq r (List.mem_cons_of_mem _ hr)
      show (rest.foldl _ (L.set q.1 ((L.getD q.1 []) ++ [q.2]))).getD l [] = _
      rw [(ih (L.set q.1 ((L.getD q.1 []) ++ [q.2]))).2 hrest l]
      by_cases hl : q.1 = l
      · subst hl
        rw [getD_set_self L q.1 _ hq1]
        rw [List.filter_cons_of_pos (by simp)]
        simp [List.append_assoc]
      · rw [getD_set_ne L q.1 l _ (fun hh => hl hh.symm)]
        rw [List.filter_cons_of_neg (by simp [hl])]

/-- Helper: folding pushMem appends the memtables in order. -/
theorem foldl_pushMem : ∀ (ms : List MemTableState) (v0 : ReadView),
    ms.foldl (fun v m => pushMem m v) v0 = { v0 with memtables := v0.memtables ++ ms } := by
  intro ms
  induction ms with
  | nil => intro v0; simp
  | cons m rest ih =>
    intro v0
    rw [List.foldl_cons, ih (pushMem m v0)]
    simp [pushMem]

/-- Helper: folding pushSst is the lane fold on the leveled sst lists. -/
theorem foldl_pushSst : ∀ (items : List (Nat × FileHandle)) (v0 : ReadView),
    items.foldl (fun v p => pushSst p.1 p.2 v) v0 =
      { v0 with leveled_ssts :=
          items.foldl (fun ls q => ls.set q.1 ((ls.getD q.1 []) ++ [q.2])) v0.leveled_ssts } := by
  intro items
  induction items with
  | nil => intro v0; rfl
  | cons q rest ih =>
    intro v0
    rw [List.foldl_cons, List.foldl_cons, ih (pushSst q.1 q.2 v0)]
    rfl

/-- The (level, file) pairs of the levels starting at level offset n. -/
def sstItemsFrom (n : Nat) (lv : List (List FileHandle)) : List (Nat × FileHandle) :=
  (List.enumFrom n lv).flatMap (fun p => p.2.map (fun f => (p.1, f)))

/-- Helper: sstItems is sstItemsFrom at offset 0. -/
theorem sstItems_eq_from (v : ReadView) : sstItems v = sstItemsFrom 0 v.leveled_ssts := rfl

/-- Helper: peel one level off sstItemsFrom. -/
theorem sstItemsFrom_cons (n : Nat) (fs : List FileHandle) (rest : List (List FileHandle)) :
    sstItemsFrom n (fs :: rest) =
      fs.map (fun f => (n, f)) ++ sstItemsFrom (n + 1) rest := by
  simp [sstItemsFrom, List.enumFrom]

/-- Helper: every item of sstItemsFrom carries a level in bounds. -/
theorem sstItemsFrom_bound : ∀ (lv : List (List FileHandle)) (n : Nat)
    (q : Nat × FileHandle), q ∈ sstItemsFrom n lv → n ≤ q.1 ∧ q.1 < n + lv.length := by
  intro lv
  induction lv with
  | nil =>
    intro n q hq
    simp [sstItemsFrom, List.enumFrom] at hq
  | cons fs rest ih =>
    intro n q hq
    rw [sstItemsFrom_cons] at hq
    rcases List.mem_append.mp hq with hq1 | hq2
    · rcases List.mem_map.mp hq1 with ⟨f, _, rfl⟩
      simp only [List.length_cons]
      omega
    · have := ih (n + 1) q hq2
      simp only [List.length_cons]
      omega

/-- Helper: the items of level l among sstItemsFrom are exactly the files of
the list at index l, paired with l, in order. -/
theorem filter_fst_sstItemsFrom : ∀ (lv : List (List FileHandle)) (n l : Nat), n ≤ l →
    (sstItemsFrom n lv).filter (fun q => decide (q.1 = l)) =
      (lv.getD (l - n) []).map (fun f => (l, f)) := by
  intro lv
  induction lv with
  | nil =>
    intro n l _
    have h0 : sstItemsFrom n [] = [] := by simp [sstItemsFrom, List.enumFrom]
    rw [h0]
    cases hdiff : l - n <;> rfl
  | cons fs rest ih =>
    intro n l hnl
    rw [sstItemsFrom_cons, List.filter_append]
    by_cases hnl2 : n = l
    · subst hnl2
      have h1 : (fs.map (fun f => (n, f))).filter (fun q => decide (q.1 = n)) =
          fs.map (fun f => (n, f)) := by
        apply List.filter_eq_self.mpr
        intro q hq
        rcases List.mem_map.mp hq with ⟨f, _, rfl⟩
        simp
      have h2 : (sstItemsFrom (n + 1) rest).filter (fun q => decide (q.1 = n)) = [] := by
        apply List.filter_eq_nil_iff.mpr
        intro q hq
        have := sstItemsFrom_bound rest (n + 1) q hq
        simp only [decide_eq_true_eq]
        omega
      rw [h1, h2, List.append_nil]
      simp
    · have h1 : (fs.map (fun f => (n, f))).filter (fun q => decide (q.1 = l)) = [] := by
        apply List.filter_eq_nil_iff.mpr
        intro q hq
        rcases List.mem_map.mp hq with ⟨f, _, rfl⟩
        simp only [decide_eq_true_eq]
        omega
      rw [h1, List.nil_append, ih (n + 1) l (by omega)]
      have hdd : l - n = (l - (n + 1)) + 1 := by omega
      rw [hdd]
      rfl

/-- The key of one partition item: its time-range start truncated by the
segment duration. -/
def partItemKey (d : Int) : (Nat × FileHandle) ⊕ MemTableState → Int
  | Sum.inl p => truncate_by p.2.time_range.inclusive_start d
  | Sum.inr m => truncate_by m.time_range.inclusive_start d

/-- The map update of one partition item. -/
def partItemUpd : (Nat × FileHandle) ⊕ MemTableState → ReadView → ReadView
  | Sum.inl p => pushSst p.1 p.2
  | Sum.inr m => pushMem m

/-- All partition items of a view: the (level, file) pairs, then the
memtables, in iteration order. -/
def partItems (v : ReadView) : List ((Nat × FileHandle) ⊕ MemTableState) :=
  (sstItems v).map Sum.inl ++ v.memtables.map Sum.inr

/-- The occupied segment buckets of a view, in ascending order. -/
def occupiedBuckets (d : Int) (v : ReadView) : List Int :=
  foldKeys (partItemKey d) (partItems v) []

/-- The sub-view of one segment bucket: the memtables and the per-level
files whose range start truncates to the bucket key. -/
def subViewAt (d : Int) (v : ReadView) (k : Int) : ReadView :=
  { sampling_mem := none
    memtables := v.memtables.filter
      (fun m => decide (truncate_by m.time_range.inclusive_start d = k))
    leveled_ssts := v.leveled_ssts.map
      (fun fs => fs.filter (fun f => decide (truncate_by f.time_range.inclusive_start d = k))) }

/-- Helper: the lane fold of one bucket's file items equals the per-level
filter of the view. -/
theorem lane_bucket_eq (d : Int) (v : ReadView) (k : Int) :
    (((sstItems v).filter
        (fun p => decide (truncate_by p.2.time_range.inclusive_start d = k))).foldl
      (fun ls q => ls.set q.1 ((ls.getD q.1 []) ++ [q.2]))
      (List.replicate v.leveled_ssts.length [])) =
    v.leveled_ssts.map
      (fun fs => fs.filter (fun f => decide (truncate_by f.time_range.inclusive_start d = k))) := by
  have hbound : ∀ q ∈ (sstItems v).filter
      (fun p => decide (truncate_by p.2.time_range.inclusive_start d = k)),
      q.1 < (List.replicate v.leveled_ssts.length ([] : List FileHandle)).length := by
    intro q hq
    rw [List.length_replicate]
    have hmem : q ∈ sstItems v := List.mem_of_mem_filter hq
    rw [sstItems_eq_from] at hmem
    have := sstItemsFrom_bound v.leveled_ssts 0 q hmem
    omega
  rcases foldl_lane ((sstItems v).filter
      (fun p => decide (truncate_by p.2.time_range.inclusive_start d = k)))
      (List.replicate v.leveled_ssts.length []) with ⟨hlen, hget⟩
  apply List.ext_get
  · rw [hlen, List.length_replicate, List.length_map]
  · intro i h1 h2
    have hi : i < v.leveled_ssts.length := by
      rw [List.length_map] at h2
      exact h2
    rw [← List.getD_eq_get _ [] h1]
    rw [hget hbound i]
    rw [getD_replicate_nil, List.nil_append]
    have hswap : (((sstItems v).filter
        (fun p => decide (truncate_by p.2.time_range.inclusive_start d = k))).filter
          (fun q => decide (q.1 = i)))
        = (((sstItems v).filter (fun q => decide (q.1 = i))).filter
          (fun p => decide (truncate_by p.2.time_range.inclusive_start d = k))) := by
      rw [List.filter_filter, List.filter_filter]
      apply List.filter_congr
      intro q _
      rw [Bool.and_comm]
    rw [hswap]
    have hlevel : (sstItems v).filter (fun q => decide (q.1 = i)) =
        (v.leveled_ssts.getD i []).map (fun f => (i, f)) := by
      rw [sstItems_eq_from]
      have := filter_fst_sstItemsFrom v.leveled_ssts 0 i (Nat.zero_le i)
      rw [Nat.sub_zero] at this
      exact this
    rw [hlevel]
    rw [List.map_filter]
    have hcomp : ((fun p : Nat × FileHandle =>
        decide (truncate_by p.2.time_range.inclusive_start d = k)) ∘ (fun f => (i, f)))
        = (fun f : FileHandle => decide (truncate_by f.time_range.inclusive_start d = k)) := rfl
    rw [hcomp]
    rw [List.map_map]
    have hsnd : (Prod.snd ∘ (fun f : FileHandle => (i, f))) = id := rfl
    rw [hsnd, List.map_id]
    rw [List.get_map]
    apply congrArg
    exact List.getD_eq_get _ [] hi

/-- Helper: the per-bucket fold of the partition items builds exactly the
bucket's sub-view. -/
theorem bucketAcc_partItems (d : Int) (v : ReadView) (k : Int) :
    bucketAcc (partItemKey d) partItemUpd (partItems v)
        (defaultReadView v.leveled_ssts.length) k = subViewAt d v k := by
  unfold bucketAcc partItems
  rw [List.filter_append, List.map_filter, List.map_filter]
  have hcompA : ((fun it => decide (partItemKey d it = k)) ∘ Sum.inl) =
      (fun p : Nat × FileHandle =>
        decide (truncate_by p.2.time_range.inclusive_start d = k)) := rfl
  have hcompB : ((fun it => decide (partItemKey d it = k)) ∘ Sum.inr) =
      (fun m : MemTableState =>
        decide (truncate_by m.time_range.inclusive_start d = k)) := rfl
  rw [hcompA, hcompB]
  rw [List.foldl_append, List.foldl_map, List.foldl_map]
  show (v.memtables.filter
      (fun m => decide (truncate_by m.time_range.inclusive_start d = k))).foldl
        (fun v m => pushMem m v)
        (((sstItems v).filter
          (fun p => decide (truncate_by p.2.time_range.inclusive_start d = k))).foldl
            (fun v p => pushSst p.1 p.2 v)
            (defaultReadView v.leveled_ssts.length)) = _
  rw [foldl_pushSst, foldl_pushMem]
  simp only [defaultReadView]
  rw [lane_bucket_eq d v k]
  simp [subViewAt]

/-- Helper: a file satisfies P somewhere in the sst items iff it satisfies
P in some level. -/
theorem exists_sstItemsFrom (P : FileHandle → Prop) :
    ∀ (lv : List (List FileHandle)) (n : Nat),
      (∃ q ∈ sstItemsFrom n lv, P q.2) ↔ ∃ fs ∈ lv, ∃ f ∈ fs, P f := by
  intro lv
  induction lv with
  | nil =>
    intro n
    constructor
    · rintro ⟨q, hq, _⟩
      simp [sstItemsFrom, List.enumFrom] at hq
    · rintro ⟨fs, hfs, _⟩
      simp at hfs
  | cons fs rest ih =>
    intro n
    constructor
    · rintro ⟨q, hq, hP⟩
      rw [sstItemsFrom_cons] at hq
      rcases List.mem_append.mp hq with h | h
      · rcases List.mem_map.mp h with ⟨f, hf, rfl⟩
        exact ⟨fs, List.mem_cons_self fs rest, f, hf, hP⟩
      · rcases (ih (n + 1)).mp ⟨q, h, hP⟩ with ⟨fs2, h2, f, hf, hP2⟩
        exact ⟨fs2, List.mem_cons_of_mem _ h2, f, hf, hP2⟩
    · rintro ⟨fs2, hfs2, f, hf, hP⟩
      rcases List.mem_cons.mp hfs2 with rfl | h2
      · refine ⟨(n, f), ?_, hP⟩
        rw [sstItemsFrom_cons]
        exact List.mem_append_left _ (List.mem_map_of_mem _ hf)
      · rcases (ih (n + 1)).mpr ⟨fs2, h2, f, hf, hP⟩ with ⟨q, hq, hP2⟩
        refine ⟨q, ?_, hP2⟩
        rw [sstItemsFrom_cons]
        exact List.mem_append_right _ hq

/-- Helper: under a known segment duration and no sampling memtable,
partition_ssts_and_memtables returns the bucket sub-views in ascending
bucket order. -/
theorem partition_some_eq (time_range : TimeRange) (version : TableVersion)
    (topts : TableOptions) (d : Int) (hseg : topts.segment_duration = some d)
    (hsamp : (pick_read_view version time_range).contains_sampling = false) :
    partition_ssts_and_memtables time_range version topts =
      (occupiedBuckets d (pick_read_view version time_range)).map
        (subViewAt d (pick_read_view version time_range)) := by
  have hfold : partition_ssts_and_memtables time_range version topts =
      ((partItems (pick_read_view version time_range)).foldl
        (fun m it => omapInsertWith (partItemKey d it) (partItemUpd it)
          (defaultReadView (pick_read_view version time_range).leveled_ssts.length) m)
        []).map (fun p => p.2) := by
    simp only [partition_ssts_and_memtables, hseg, hsamp, Bool.false_eq_true, if_false]
    apply congrArg (fun m => List.map (fun p => (p : Int × ReadView).2) m)
    unfold partItems
    rw [List.foldl_append, List.foldl_map, List.foldl_map]
    rfl
  rw [hfold]
  rw [show ([] : List (Int × ReadView)) =
    ([] : List Int).map (fun k => (k, defaultReadView
      (pick_read_view version time_range).leveled_ssts.length)) from rfl]
  rw [foldl_omapInsertWith (partItemKey d) partItemUpd
    (defaultReadView (pick_read_view version time_range).leveled_ssts.length)
    (partItems (pick_read_view version time_range)) []
    (fun _ => defaultReadView (pick_read_view version time_range).leveled_ssts.length)
    List.Pairwise.nil]
  rw [List.map_map]
  unfold occupiedBuckets
  apply (List.map_eq_map_iff).mpr
  intro k _
  show (k, bucketAcc (partItemKey d) partItemUpd
      (partItems (pick_read_view version time_range))
      (if k ∈ ([] : List Int) then _ else _) k).2 = _
  rw [if_neg (List.not_mem_nil k)]
  exact bucketAcc_partItems d (pick_read_view version time_range) k

/-- C7: partition_ssts_and_memtables returns exactly the one unpartitioned
picked read view when the segment duration is unknown or the picked view
contains a sampling memtable; otherwise it returns one sub-view per
occupied time bucket, in ascending bucket order, each source assigned to
the bucket of its time-range start truncated by the segment duration. -/
theorem partition_ssts_and_memtables_spec (time_range : TimeRange)
    (version : TableVersion) (topts : TableOptions) :
    ((topts.segment_duration = none ∨
        (pick_read_view version time_range).contains_sampling = true) →
      partition_ssts_and_memtables time_range version topts =
        [pick_read_view version time_range])
    ∧ (∀ d : Int, topts.segment_duration = some d →
        (pick_read_view version time_range).contains_sampling = false →
        (partition_ssts_and_memtables time_range version topts =
            (occupiedBuckets d (pick_read_view version time_range)).map
              (subViewAt d (pick_read_view version time_range))
          ∧ (occupiedBuckets d (pick_read_view version time_range)).Pairwise (· < ·)
          ∧ ∀ k : Int, k ∈ occupiedBuckets d (pick_read_view version time_range) ↔
              ((∃ fs ∈ (pick_read_view version time_range).leveled_ssts, ∃ f ∈ fs,
                  truncate_by f.time_range.inclusive_start d = k)
                ∨ ∃ m ∈ (pick_read_view version time_range).memtables,
                    truncate_by m.time_range.inclusive_start d = k))) := by
  constructor
  · rintro (hseg | hsamp)
    · simp [partition_ssts_and_memtables, hseg]
    · cases hseg : topts.segment_duration with
      | none => simp [partition_ssts_and_memtables, hseg]
      | some d => simp [partition_ssts_and_memtables, hseg, hsamp]
  · intro d hseg hsamp
    refine ⟨partition_some_eq time_range version topts d hseg hsamp, ?_, ?_⟩
    · exact pairwise_foldKeys (partItemKey d)
        (partItems (pick_read_view version time_range)) [] List.Pairwise.nil
    · intro k
      unfold occupiedBuckets
      rw [mem_foldKeys]
      constructor
      · rintro (hk | ⟨it, hit, hkey⟩)
        · exact absurd hk (List.not_mem_nil k)
        · rcases List.mem_append.mp hit with h | h
          · rcases List.mem_map.mp h with ⟨q, hq, rfl⟩
            left
            have := (exists_sstItemsFrom
              (fun f => truncate_by f.time_range.inclusive_start d = k)
              (pick_read_view version time_range).leveled_ssts 0).mp
              ⟨q, by rw [← sstItems_eq_from]; exact hq, hkey⟩
            exact this
          · rcases List.mem_map.mp h with ⟨m, hm, rfl⟩
            right
            exact ⟨m, hm, hkey⟩
      · rintro (⟨fs, hfs, f, hf, hk⟩ | ⟨m, hm, hk⟩)
        · right
          rcases (exists_sstItemsFrom
            (fun f => truncate_by f.time_range.inclusive_start d = k)
            (pick_read_view version time_range).leveled_ssts 0).mpr
            ⟨fs, hfs, f, hf, hk⟩ with ⟨q, hq, hkq⟩
          refine ⟨Sum.inl q, ?_, hkq⟩
          apply List.mem_append_left
          apply List.mem_map_of_mem
          rw [sstItems_eq_from]
          exact hq
        · right
          refine ⟨Sum.inr m, ?_, hk⟩
          exact List.mem_append_right _ (List.mem_map_of_mem _ hm)

/-- Helper: countP only depends on the predicate's values on the list. -/
theorem countP_congr_mem {α : Type} (p q : α → Bool) : ∀ l : List α,
    (∀ a ∈ l, p a = q a) → l.countP p = l.countP q := by
  intro l
  induction l with
  | nil => intro _; rfl
  | cons a rest ih =>
    intro h
    rw [List.countP_cons, List.countP_cons, h a (List.mem_cons_self a rest),
      ih (fun b hb => h b (List.mem_cons_of_mem _ hb))]

/-- Helper: a duplicate-free list counts a present key exactly once. -/
theorem countP_key_eq_one (k0 : Int) : ∀ ks : List Int, ks.Nodup → k0 ∈ ks →
    ks.countP (fun k => decide (k0 = k)) = 1 := by
  intro ks
  induction ks with
  | nil =>
    intro _ h
    cases h
  | cons a rest ih =>
    intro hnd hmem
    rcases List.nodup_cons.mp hnd with ⟨hnotin, hrest⟩
    rw [List.countP_cons]
    rcases List.mem_cons.mp hmem with rfl | hm
    · have h0 : rest.countP (fun k => decide (k0 = k)) = 0 :=
        List.countP_eq_zero.mpr (by
          intro b hb hk
          simp only [decide_eq_true_eq] at hk
          exact hnotin (hk ▸ hb))
      rw [h0]
      simp
    · rw [ih hrest hm]
      have hne : ¬ (decide (k0 = a) = true) := by
        simp only [decide_eq_true_eq]
        intro hk
        exact hnotin (hk ▸ hm)
      simp [hne]

/-- Helper: membership of a file in a bucket sub-view's level. -/
theorem mem_subView_leveled (d : Int) (v : ReadView) (k : Int) (l : Nat) (f : FileHandle) :
    f ∈ (subViewAt d v k).leveled_ssts.getD l [] ↔
      (f ∈ v.leveled_ssts.getD l [] ∧ truncate_by f.time_range.inclusive_start d = k) := by
  show f ∈ (v.leveled_ssts.map _).getD l [] ↔ _
  by_cases hl : l < v.leveled_ssts.length
  · rw [List.getD_eq_get _ [] (by rw [List.length_map]; exact hl)]
    rw [List.get_map]
    rw [List.getD_eq_get _ [] hl]
    simp [List.mem_filter]
  · rw [List.getD_eq_default _ [] (by rw [List.length_map]; omega)]
    rw [List.getD_eq_default _ [] (by omega)]
    simp

/-- Helper: membership of a memtable in a bucket sub-view. -/
theorem mem_subView_memtables (d : Int) (v : ReadView) (k : Int) (m : MemTableState) :
    m ∈ (subViewAt d v k).memtables ↔
      (m ∈ v.memtables ∧ truncate_by m.time_range.inclusive_start d = k) := by
  show m ∈ v.memtables.filter _ ↔ _
  simp [List.mem_filter]

/-- Helper: a file of the picked view occupies its bucket. -/
theorem bucket_occupied_of_file (d : Int) (v : ReadView) (l : Nat) (f : FileHandle)
    (hf : f ∈ v.leveled_ssts.getD l []) :
    truncate_by f.time_range.inclusive_start d ∈ occupiedBuckets d v := by
  have hl : l < v.leveled_ssts.length := by
    by_contra hge
    rw [List.getD_eq_default _ [] (by omega)] at hf
    exact absurd hf (List.not_mem_nil f)
  have hf2 : f ∈ v.leveled_ssts.get ⟨l, hl⟩ := by
    rw [List.getD_eq_get _ [] hl] at hf
    exact hf
  rcases (exists_sstItemsFrom
      (fun g => truncate_by g.time_range.inclusive_start d =
        truncate_by f.time_range.inclusive_start d) v.leveled_ssts 0).mpr
      ⟨v.leveled_ssts.get ⟨l, hl⟩, v.leveled_ssts.get_mem l hl, f, hf2, rfl⟩ with ⟨q, hq, hkey⟩
  unfold occupiedBuckets
  rw [mem_foldKeys]
  right
  refine ⟨Sum.inl q, ?_, hkey⟩
  apply List.mem_append_left
  apply List.mem_map_of_mem
  rw [sstItems_eq_from]
  exact hq

/-- Helper: a memtable of the picked view occupies its bucket. -/
theorem bucket_occupied_of_memtable (d : Int) (v : ReadView) (m : MemTableState)
    (hm : m ∈ v.memtables) :
    truncate_by m.time_range.inclusive_start d ∈ occupiedBuckets d v := by
  unfold occupiedBuckets
  rw [mem_foldKeys]
  right
  exact ⟨Sum.inr m, List.mem_append_right _ (List.mem_map_of_mem _ hm), rfl⟩

/-- C9: when partitioning happens (segment duration known, no sampling
memtable), the sub-views partition the picked read view: every file of
every level and every memtable appears, at the same level, in exactly one
sub-view, and no sub-view contains a source outside the picked view. -/
theorem partition_view_exact_cover (time_range : TimeRange) (version : TableVersion)
    (topts : TableOptions) (d : Int) (hseg : topts.segment_duration = some d)
    (hsamp : (pick_read_view version time_range).contains_sampling = false) :
    (∀ (l : Nat) (f : FileHandle),
        (partition_ssts_and_memtables time_range version topts).countP
            (fun sv => decide (f ∈ sv.leveled_ssts.getD l []))
          = if f ∈ (pick_read_view version time_range).leveled_ssts.getD l [] then 1 else 0)
    ∧ (∀ m : MemTableState,
        (partition_ssts_and_memtables time_range version topts).countP
            (fun sv => decide (m ∈ sv.memtables))
          = if m ∈ (pick_read_view version time_range).memtables then 1 else 0) := by
  have hpart := partition_some_eq time_range version topts d hseg hsamp
  have hnd : (occupiedBuckets d (pick_read_view version time_range)).Nodup :=
    List.Pairwise.imp (fun hab => ne_of_lt hab)
      (pairwise_foldKeys (partItemKey d)
        (partItems (pick_read_view version time_range)) [] List.Pairwise.nil)
  constructor
  · intro l f
    rw [hpart, List.countP_map]
    rw [countP_congr_mem _
      (fun k => decide (f ∈ (pick_read_view version time_range).leveled_ssts.getD l []
        ∧ truncate_by f.time_range.inclusive_start d = k)) _
      (by
        intro k _
        exact decide_eq_decide.mpr (mem_subView_leveled d _ k l f))]
    by_cases hf : f ∈ (pick_read_view version time_range).leveled_ssts.getD l []
    · rw [if_pos hf]
      rw [countP_congr_mem _
        (fun k => decide (truncate_by f.time_range.inclusive_start d = k)) _
        (by
          intro k _
          exact decide_eq_decide.mpr ⟨fun h => h.2, fun h => ⟨hf, h⟩⟩)]
      exact countP_key_eq_one (truncate_by f.time_range.inclusive_start d) _ hnd
        (bucket_occupied_of_file d _ l f hf)
    · rw [if_neg hf]
      apply List.countP_eq_zero.mpr
      intro k _ hk
      simp only [decide_eq_true_eq] at hk
      exact hf hk.1
  · intro m
    rw [hpart, List.countP_map]
    rw [countP_congr_mem _
      (fun k => decide (m ∈ (pick_read_view version time_range).memtables
        ∧ truncate_by m.time_range.inclusive_start d = k)) _
      (by
        intro k _
        exact decide_eq_decide.mpr (mem_subView_memtables d _ k m))]
    by_cases hm : m ∈ (pick_read_view version time_range).memtables
    · rw [if_pos hm]
      rw [countP_congr_mem _
        (fun k => decide (truncate_by m.time_range.inclusive_start d = k)) _
        (by
          intro k _
          exact decide_eq_decide.mpr ⟨fun h => h.2, fun h => ⟨hm, h⟩⟩)]
      exact countP_key_eq_one (truncate_by m.time_range.inclusive_start d) _ hnd
        (bucket_occupied_of_memtable d _ m hm)
    · rw [if_neg hm]
      apply List.countP_eq_zero.mpr
      intro k _ hk
      simp only [decide_eq_true_eq] at hk
      exact hm hk.1

/-- Helper: build_partitioned_streams is the lane fold over mod-indexed
items. -/
theorem build_eq_lane {I : Type} (read_parallelism : Nat) (desc : Bool) (iters : List I) :
    build_partitioned_streams read_parallelism desc iters =
      ((if read_parallelism = 1 ∧ desc = true then iters.reverse else iters).enum.map
        (fun q => (q.1 % read_parallelism, q.2))).foldl
          (fun ls q => ls.set q.1 ((ls.getD q.1 []) ++ [q.2]))
          (List.replicate read_parallelism []) := by
  simp only [build_partitioned_streams]
  rw [List.foldl_map]

/-- Helper: build_partitioned_streams always returns read_parallelism
lanes. -/
theorem build_length {I : Type} (read_parallelism : Nat) (desc : Bool) (iters : List I) :
    (build_partitioned_streams read_parallelism desc iters).length = read_parallelism := by
  rw [build_eq_lane read_parallelism desc iters]
  rw [(foldl_lane _ (List.replicate read_parallelism [])).1, List.length_replicate]

/-- C8: for every read with read_parallelism at least 1,
build_partitioned_streams returns exactly read_parallelism streams — lanes
without iterators included — with sub-view iterator i assigned to lane
i mod read_parallelism, and partitioned_read_from_table therefore returns
exactly read_parallelism streams however many sub-views were built. -/
theorem build_partitioned_streams_spec {I : Type} (read_parallelism : Nat) (desc : Bool)
    (partitioned_iters : List I) (hp : 1 ≤ read_parallelism) (time_range : TimeRange)
    (version : TableVersion) (topts : TableOptions) :
    (build_partitioned_streams read_parallelism desc partitioned_iters).length
        = read_parallelism
    ∧ (∀ j : Nat,
        (build_partitioned_streams read_parallelism desc partitioned_iters).getD j [] =
          (((if read_parallelism = 1 ∧ desc = true then partitioned_iters.reverse
              else partitioned_iters).enum.filter
            (fun q => decide (q.1 % read_parallelism = j))).map Prod.snd))
    ∧ (partitioned_read_from_table read_parallelism desc time_range version topts).length
        = read_parallelism := by
  refine ⟨build_length read_parallelism desc partitioned_iters, ?_, ?_⟩
  · intro j
    rw [build_eq_lane read_parallelism desc partitioned_iters]
    have hbound : ∀ q ∈ (if read_parallelism = 1 ∧ desc = true then
        partitioned_iters.reverse else partitioned_iters).enum.map
          (fun q => (q.1 % read_parallelism, q.2)),
        q.1 < (List.replicate read_parallelism ([] : List I)).length := by
      intro q hq
      rw [List.length_replicate]
      rcases List.mem_map.mp hq with ⟨r, _, rfl⟩
      exact Nat.mod_lt _ (by omega)
    rw [(foldl_lane _ (List.replicate read_parallelism [])).2 hbound j]
    rw [getD_replicate_nil, List.nil_append]
    rw [List.map_filter]
    have hcomp : ((fun q : Nat × I => decide (q.1 = j)) ∘
        (fun q : Nat × I => (q.1 % read_parallelism, q.2)))
        = (fun q : Nat × I => decide (q.1 % read_parallelism = j)) := rfl
    rw [hcomp, List.map_map]
    rfl
  · show (build_partitioned_streams read_parallelism desc
      (partition_ssts_and_memtables time_range version topts)).length = read_parallelism
    exact build_length read_parallelism desc
      (partition_ssts_and_memtables time_range version topts)

/-- Witness memtable covering [4, 6). -/
def sampleMem : MemTableState :=
  { time_range := { inclusive_start := 4, exclusive_end := 6 }, mem := 7 }

/-- Witness table version with one level-0 level and one memtable. -/
def sampleVersion : TableVersion :=
  { sampling_mem := none
    memtables := [sampleMem]
    levels := [{ level := 0, files := sampleSet }] }

/-- Witness query range. -/
def sampleRange : TimeRange := { inclusive_start := 0, exclusive_end := 100 }

/-- Witness table options with a 4-unit segment duration. -/
def sampleOpts : TableOptions := { segment_duration := some 4 }

/-- C9 witness: the concrete one-level version with one memtable is
partitioned so that each source lands in exactly one sub-view. -/
theorem partition_view_exact_cover_witness :
    (∀ (l : Nat) (f : FileHandle),
        (partition_ssts_and_memtables sampleRange sampleVersion sampleOpts).countP
            (fun sv => decide (f ∈ sv.leveled_ssts.getD l []))
          = if f ∈ (pick_read_view sampleVersion sampleRange).leveled_ssts.getD l []
            then 1 else 0)
    ∧ (∀ m : MemTableState,
        (partition_ssts_and_memtables sampleRange sampleVersion sampleOpts).countP
            (fun sv => decide (m ∈ sv.memtables))
          = if m ∈ (pick_read_view sampleVersion sampleRange).memtables then 1 else 0) :=
  partition_view_exact_cover sampleRange sampleVersion sampleOpts 4 rfl rfl

/-- C8 witness: three iterators split over two lanes give exactly two
streams, and so does the concrete partitioned read. -/
theorem build_partitioned_streams_spec_witness :
    (build_partitioned_streams 2 false [10, 20, 30]).length = 2
    ∧ (∀ j : Nat, (build_partitioned_streams 2 false [10, 20, 30]).getD j [] =
        (((if 2 = 1 ∧ false = true then [10, 20, 30].reverse else [10, 20, 30]).enum.filter
          (fun q => decide (q.1 % 2 = j))).map Prod.snd))
    ∧ (partitioned_read_from_table 2 false sampleRange sampleVersion sampleOpts).length = 2 :=
  build_partitioned_streams_spec 2 false [10, 20, 30] (by decide)
    sampleRange sampleVersion sampleOpts

end CeresDB
